import Mathlib

/-!
Verification of the columnar-serialization primitives and the CFile reader
contract of this repository (`src/kudu/common/columnar_serialization.cc`,
`src/cfile/cfile_reader.h`).

Memory is modelled as byte maps `Nat → Nat`: index `i` holds the byte at
offset `i` from the start of the relevant buffer.  All buffers in the C++
code are `uint8_t*`; reads of input bytes therefore go through `% 256`,
and every byte the code writes is itself `< 256`.  Bit `t` of a bitmap is
addressed LSB-first as `(buf[t/8] >> (t%8)) & 1`, matching the spec and
`kudu/util/bitmap.h`.  Multi-byte loads (`UnalignedLoad<uint64_t>`) are
little-endian, as on every platform this x86-specific translation unit
(it unconditionally includes `<immintrin.h>`) compiles for.
-/

/-- Bit `t` of the byte buffer `m`, LSB-first within each byte. -/
def bitView (m : Nat → Nat) (t : Nat) : Bool := (m (t / 8)).testBit (t % 8)

/-- The natural number whose low `w` bits are `f 0, f 1, ...` (LSB first). -/
def natOfBits : Nat → (Nat → Bool) → Nat
| 0, _ => 0
| w+1, f => (cond (f 0) 1 0) + 2 * natOfBits w (fun i => f (i + 1))

/-- Little-endian load of `k` bytes starting at byte offset `off`
(the `UnalignedLoad<uint64_t>` of the source, for `k = 8`). -/
def loadLE (m : Nat → Nat) : Nat → Nat → Nat
| _, 0 => 0
| off, k+1 => (m off % 256) + 256 * loadLE m (off + 1) k

/-- Overwrite the single byte at `pos` with `v`. -/
def write1 (m : Nat → Nat) (pos v : Nat) : Nat → Nat :=
  fun i => if i = pos then v else m i

/-- Write the `k` low-order bytes of `v` at positions `pos, ..., pos+k-1`,
little-endian (the `memcpy(dst_, &buffered_values_, 8)` of the source). -/
def writeBytesLE (m : Nat → Nat) (pos v k : Nat) : Nat → Nat :=
  fun i => if pos ≤ i ∧ i < pos + k then (v >>> (8 * (i - pos))) % 256 else m i

/-- `__builtin_popcountll` restricted to the low `w` bits. -/
def popcountW : Nat → Nat → Nat
| 0, _ => 0
| w+1, x => x % 2 + popcountW w (x / 2)

/-- Parallel bit extraction over the low `w` bits: gathers the bits of `v`
at the positions set in `msk` into a dense low-order result. -/
def pextW : Nat → Nat → Nat → Nat
| 0, _, _ => 0
| w+1, v, msk =>
  if msk % 2 = 1 then v % 2 + 2 * pextW w (v / 2) (msk / 2)
  else pextW w (v / 2) (msk / 2)

/-- Modelled from the spec: `zp7_pext_64_simple` (declared in
`kudu/common/zp7.h`, body not under `src/`) is the portable bit-by-bit
software implementation of 64-bit parallel bit extraction — it "gathers
the bits of a value at the positions marked by a mask into a dense
low-order result" (spec glossary), operating on `uint64_t` arguments. -/
def zp7_pext_64_simple (val mask : Nat) : Nat :=
  pextW 64 (val % 2 ^ 64) (mask % 2 ^ 64)

/-- Modelled from the spec: `zp7_pext_64_clmul` (declared in
`kudu/common/zp7.h`, body not under `src/`) is the carry-less-multiply
software implementation of 64-bit parallel bit extraction, with the same
input/output behavior as the other strategies (the spec requires "no
behavioral difference between strategies"). -/
def zp7_pext_64_clmul (val mask : Nat) : Nat :=
  pextW 64 (val % 2 ^ 64) (mask % 2 ^ 64)

/-- Modelled from the spec: `PextInstruction::call` wraps the hardware
`pext` instruction (`_pext_u64`, not under `src/`), the single-instruction
implementation of 64-bit parallel bit extraction. -/
def PextInstruction.call (val mask : Nat) : Nat :=
  pextW 64 (val % 2 ^ 64) (mask % 2 ^ 64)

/-- The `BitWriter` of `columnar_serialization.cc`: accumulates bits in a
64-bit register and spills whole bytes into the destination byte map.
`mem` plus the byte position `dst_` stand for the C++ destination pointer;
the `flushed_` debug flag (only used by a `CHECK`) is omitted. -/
structure BitWriter where
  mem : Nat → Nat
  dst_ : Nat
  buffered_values_ : Nat
  num_buffered_bits_ : Nat

/-- `BitWriter::Put(v, num_bits)`.  `uint64_t` arithmetic is `Nat`
arithmetic modulo `2^64`. -/
def BitWriter.Put (s : BitWriter) (v num_bits : Nat) : BitWriter :=
  let vv := v % 2 ^ 64
  let buffered1 := s.buffered_values_ ||| ((vv <<< s.num_buffered_bits_) % 2 ^ 64)
  let nbits1 := s.num_buffered_bits_ + num_bits
  if 64 ≤ nbits1 then
    let nbits2 := nbits1 - 64
    let shift := num_bits - nbits2
    { mem := writeBytesLE s.mem s.dst_ buffered1 8
      dst_ := s.dst_ + 8
      buffered_values_ := if 64 ≤ shift then 0 else vv >>> shift
      num_buffered_bits_ := nbits2 }
  else
    { s with buffered_values_ := buffered1, num_buffered_bits_ := nbits1 }

/-- One iteration of the `BitWriter::Flush` loop: emit the low byte of the
accumulator. -/
def BitWriter.flushStep (s : BitWriter) : BitWriter :=
  { mem := write1 s.mem s.dst_ (s.buffered_values_ % 256)
    dst_ := s.dst_ + 1
    buffered_values_ := s.buffered_values_ >>> 8
    num_buffered_bits_ := s.num_buffered_bits_ - 8 }

/-- The `while (num_buffered_bits_ > 0)` loop of `BitWriter::Flush`,
written with structural fuel.  Each iteration removes 8 from
`num_buffered_bits_` (`int` in C++, saturating at 0 here, which exits the
loop identically), so `fuel = num_buffered_bits_` always suffices. -/
def BitWriter.flushGo : Nat → BitWriter → BitWriter
| 0, s => s
| fuel+1, s => if 0 < s.num_buffered_bits_ then BitWriter.flushGo fuel s.flushStep else s

/-- `BitWriter::Flush`. -/
def BitWriter.Flush (s : BitWriter) : BitWriter :=
  BitWriter.flushGo s.num_buffered_bits_ s

/-- The `BitWriter` constructor: skip the first `skip_initial_bits` bits
by positioning at the containing byte and re-buffering its pre-existing
low bits (`*dst_ & ((1 << preexisting_bits) - 1)`). -/
def BitWriter.init (dst : Nat → Nat) (skip_initial_bits : Nat) : BitWriter :=
  let pos0 := skip_initial_bits / 8
  let preexisting_bits := skip_initial_bits % 8
  let preexisting_val := (dst pos0 % 256) &&& ((1 <<< preexisting_bits) - 1)
  BitWriter.Put
    { mem := dst, dst_ := pos0, buffered_values_ := 0, num_buffered_bits_ := 0 }
    preexisting_val preexisting_bits

/-- One iteration of the 64-row main loop of `CopyNonNullBitmapImpl`:
load a 64-bit selection lane and non-null lane, extract, and append
`popcount` bits. -/
def copyWordStep (f : Nat → Nat → Nat) (non_null_bitmap sel_bitmap : Nat → Nat)
    (s : BitWriter) (i : Nat) : BitWriter :=
  let sel_mask := loadLE sel_bitmap (i * 8) 8
  let num_bits := popcountW 64 sel_mask
  let non_nulls := loadLE non_null_bitmap (i * 8) 8
  s.Put (f non_nulls sel_mask) num_bits

/-- The `while (rem_rows > 0)` remainder loop of `CopyNonNullBitmapImpl`:
one byte of each bitmap per iteration, `rem_rows` decreasing by 8
(`int` in C++, saturating at 0 here, which exits the loop identically).
Structural fuel; each iteration consumes at least 1, so `fuel = rem_rows`
always suffices. -/
def copyRemGo (f : Nat → Nat → Nat) (non_null_bitmap sel_bitmap : Nat → Nat) :
    Nat → Nat → Nat → BitWriter → BitWriter
| 0, _, _, s => s
| fuel+1, off, rem_rows, s =>
  if 0 < rem_rows then
    let non_nulls := non_null_bitmap off % 256
    let sel_mask := sel_bitmap off % 256
    copyRemGo f non_null_bitmap sel_bitmap fuel (off + 1) (rem_rows - 8)
      (s.Put (f non_nulls sel_mask) (popcountW 64 sel_mask))
  else s

/-- `CopyNonNullBitmapImpl<PextImpl>`, parametrized by the strategy's
64-bit parallel-bit-extraction function `f`. -/
def CopyNonNullBitmapImpl (f : Nat → Nat → Nat)
    (non_null_bitmap sel_bitmap : Nat → Nat)
    (dst_idx n_rows : Nat) (dst_non_null_bitmap : Nat → Nat) : Nat → Nat :=
  let bw := BitWriter.init dst_non_null_bitmap dst_idx
  let num_64bit_words := n_rows / 64
  let bw1 := (List.range num_64bit_words).foldl (copyWordStep f non_null_bitmap sel_bitmap) bw
  let rem_rows := n_rows % 64
  let bw2 := copyRemGo f non_null_bitmap sel_bitmap rem_rows (num_64bit_words * 8) rem_rows bw1
  bw2.Flush.mem

/-- `enum class PextMethod` of `columnar_serialization.h`. -/
inductive PextMethod
| kPextInstruction
| kClmul
| kSimple
deriving DecidableEq, Repr

/-- The CPU features consulted by `GetAvailablePextMethods` (`base::CPU`,
`kudu/gutil/cpu.h`, body not under `src/`; faithfully represented by the
three queried attributes). -/
structure CPU where
  has_bmi2 : Bool
  has_pclmulqdq : Bool
  vendor_name : String

/-- `GetAvailablePextMethods`: prioritized list of usable bit-extraction
strategies.  This translation unit is x86-64-only (`<immintrin.h>` is
included unconditionally), so the `#ifdef __x86_64__` blocks are active. -/
def GetAvailablePextMethods (cpu : CPU) : List PextMethod :=
  let ret : List PextMethod := []
  let ret := if cpu.has_bmi2 && cpu.vendor_name == "GenuineIntel"
             then ret ++ [PextMethod.kPextInstruction] else ret
  let ret := if cpu.has_pclmulqdq then ret ++ [PextMethod.kClmul] else ret
  ret ++ [PextMethod.kSimple]

/-- `PextMethod g_pext_method = GetAvailablePextMethods()[0]`: the
process-wide strategy is the first element of the prioritized list
(which is proven nonempty below; the `[]` arm is dead). -/
def g_pext_method (cpu : CPU) : PextMethod :=
  match GetAvailablePextMethods cpu with
  | [] => PextMethod.kSimple
  | m :: _ => m

/-- `CopyNonNullBitmap`: dispatch on the chosen strategy. -/
def CopyNonNullBitmap (method : PextMethod)
    (non_null_bitmap sel_bitmap : Nat → Nat)
    (dst_idx n_rows : Nat) (dst_non_null_bitmap : Nat → Nat) : Nat → Nat :=
  match method with
  | PextMethod.kPextInstruction =>
    CopyNonNullBitmapImpl PextInstruction.call
      non_null_bitmap sel_bitmap dst_idx n_rows dst_non_null_bitmap
  | PextMethod.kClmul =>
    CopyNonNullBitmapImpl zp7_pext_64_clmul
      non_null_bitmap sel_bitmap dst_idx n_rows dst_non_null_bitmap
  | PextMethod.kSimple =>
    CopyNonNullBitmapImpl zp7_pext_64_simple
      non_null_bitmap sel_bitmap dst_idx n_rows dst_non_null_bitmap

/-- `memset(p, 0, len)` on the byte map. -/
def memsetZero (m : Nat → Nat) (off len : Nat) : Nat → Nat :=
  fun i => if off ≤ i ∧ i < off + len then 0 else m i

/-- `ZeroNullValuesImpl<sizeof_type>`.  `KUDU_ALIGN_DOWN(dst_idx, 8)`
is `8 * (dst_idx / 8)`.  `ForEachUnsetBit` (`kudu/util/bitmap.h`, body not
under `src/`) is modelled from the spec: it invokes the callback for each
bit position in `[0, aligned_n_sel)` whose bit is unset in the bitmap
starting at byte `aligned_dst_idx/8`, i.e. for each absolute row
`aligned_dst_idx + p` with an unset non-null bit; the callback zeroes
that cell.  (The iteration order is irrelevant: the zeroed cells are
disjoint.) -/
def ZeroNullValuesImpl (sizeof_type dst_idx n_rows : Nat)
    (dst_values_buf non_null_bitmap : Nat → Nat) : Nat → Nat :=
  let aligned_dst_idx := 8 * (dst_idx / 8)
  let aligned_n_sel := n_rows + (dst_idx - aligned_dst_idx)
  (List.range aligned_n_sel).foldl
    (fun d p =>
      if bitView non_null_bitmap (aligned_dst_idx + p) then d
      else memsetZero d ((aligned_dst_idx + p) * sizeof_type) sizeof_type)
    dst_values_buf

/-- `ZeroNullValues`: width dispatch.  `LOG(FATAL)` on an unsupported
width aborts the process before touching the buffer; that arm is `none`. -/
def ZeroNullValues (sizeof_type dst_idx n_rows : Nat)
    (dst_values_buf dst_non_null_bitmap : Nat → Nat) : Option (Nat → Nat) :=
  if sizeof_type = 1 ∨ sizeof_type = 2 ∨ sizeof_type = 4 ∨ sizeof_type = 8 ∨ sizeof_type = 16
  then some (ZeroNullValuesImpl sizeof_type dst_idx n_rows dst_values_buf dst_non_null_bitmap)
  else none

/-- `CopySelectedRowsImpl<sizeof_type>`: copy the cell at each selected
index to consecutive destination cells.  `dpos` is the current destination
byte offset (the advancing `dst_buf` pointer). -/
def CopySelectedRowsImpl (sizeof_type : Nat) :
    List Nat → Nat → (Nat → Nat) → (Nat → Nat) → (Nat → Nat)
| [], _, _, dst_buf => dst_buf
| idx :: rest, dpos, src_buf, dst_buf =>
  CopySelectedRowsImpl sizeof_type rest (dpos + sizeof_type) src_buf
    (fun i => if dpos ≤ i ∧ i < dpos + sizeof_type
              then src_buf (idx * sizeof_type + (i - dpos)) % 256
              else dst_buf i)

/-- `CopySelectedRows`: width dispatch, `LOG(FATAL)` (modelled `none`) on
an unsupported width.  `sel_rows` holds the `uint16_t` selected indices. -/
def CopySelectedRows (sel_rows : List Nat) (sizeof_type : Nat)
    (src_buf dst_buf : Nat → Nat) : Option (Nat → Nat) :=
  if sizeof_type = 1 ∨ sizeof_type = 2 ∨ sizeof_type = 4 ∨ sizeof_type = 8 ∨ sizeof_type = 16
  then some (CopySelectedRowsImpl sizeof_type sel_rows 0 src_buf dst_buf)
  else none

/-- The observable fields of a `CFileIterator` (`cfile_reader.h`): the
seek state, the current ordinal position held by the positional index
iterator, and the cached data block fields `dblk_data_` / `dblk_`
(abstracted as opaque tokens — their byte contents are irrelevant to the
contract claims). -/
structure CFileIterState where
  seeked_ : Bool
  pos : Nat
  dblk_data_ : Nat
  dblk_ : Nat
deriving DecidableEq, Repr

/-- Modelled from the spec: the behavior of
`CFileIterator::ReadCurrentDataBlock` (body not under `src/`) as the
relation of allowed `(pre-state, result, post-state)` transitions.  On
success the block pointed to by the index iterator is read into
`dblk_data_` and `dblk_` (some decoded values `d`, `k`); the iterator
position itself is not moved by this helper.  On error, per the header's
documented contract ("If this returns an error, then the fields have
undefined values") and the spec ("undefined output-field state on
failure", "on error, iterator position is unchanged from before the
call"), the position is unchanged while the output fields `dblk_data_`
and `dblk_` are unconstrained (stale or clobbered, but not out-of-bounds). -/
def ReadCurrentDataBlockStep (ok : Bool) (s s' : CFileIterState) : Prop :=
  if ok then
    s'.seeked_ = s.seeked_ ∧ s'.pos = s.pos ∧
    ∃ d k, s' = { s with dblk_data_ := d, dblk_ := k }
  else
    s'.seeked_ = s.seeked_ ∧ s'.pos = s.pos

/-- The selected row positions among rows `[0, n)`: positions of set bits
of the selection bitmap, in increasing order. -/
def selRows (sel_bitmap : Nat → Nat) (n : Nat) : List Nat :=
  (List.range n).filter (fun r => bitView sel_bitmap r)

/-- The number of rows the compaction actually consumes from its input
bitmaps: `n_rows` rounded up to a whole byte (the remainder loop always
reads full bytes). -/
def processedRows (n_rows : Nat) : Nat := 8 * ((n_rows + 7) / 8)

/-- The bit stream the compaction appends: the non-null bit of each
selected row among the processed rows, in row order. -/
def streamBits (non_null_bitmap sel_bitmap : Nat → Nat) (n : Nat) : List Bool :=
  (selRows sel_bitmap n).map (fun r => bitView non_null_bitmap r)

/-- The logical bit sequence laid down starting at the byte containing
`dst_idx`: first the `dst_idx % 8` pre-existing low bits of that byte,
then the appended stream; `false` past the end. -/
def outBit (mem0 : Nat → Nat) (dst_idx : Nat) (bits : List Bool) (t : Nat) : Bool :=
  if t < dst_idx % 8 then bitView mem0 (8 * (dst_idx / 8) + t)
  else bits.getD (t - dst_idx % 8) false

/-- Functional description of the compaction's effect on the destination
byte map: bytes `[dst_idx/8, dst_idx/8 + ⌈(dst_idx%8 + |bits|)/8⌉)` are
rebuilt from `outBit` (pre-existing low bits, then the stream, then zero
padding to the byte boundary); all other bytes are untouched. -/
def copySpecMem (mem0 : Nat → Nat) (dst_idx : Nat) (bits : List Bool) : Nat → Nat :=
  fun i =>
    if dst_idx / 8 ≤ i ∧ i < dst_idx / 8 + (dst_idx % 8 + bits.length + 7) / 8 then
      natOfBits 8 (fun b =>
        decide (8 * (i - dst_idx / 8) + b < dst_idx % 8 + bits.length)
          && outBit mem0 dst_idx bits (8 * (i - dst_idx / 8) + b))
    else mem0 i

/-- Coupling invariant for a `BitWriter` created at bit offset `8*d0`
that has so far absorbed the first `La` bits of the logical bit stream
`F`: the destination pointer, the bit counter, the accumulator contents
and the bytes already spilled to memory are all determined by `F` and
`La`.  `mem0` is the destination byte map at construction time. -/
def bwInv (mem0 : Nat → Nat) (d0 : Nat) (F : Nat → Bool) (La : Nat) (s : BitWriter) : Prop :=
  s.dst_ = d0 + 8 * (La / 64) ∧
  s.num_buffered_bits_ = La % 64 ∧
  (∀ t, s.buffered_values_.testBit t = (decide (t < La % 64) && F (64 * (La / 64) + t))) ∧
  (∀ i, s.mem i = if d0 ≤ i ∧ i < d0 + 8 * (La / 64)
                  then natOfBits 8 (fun b => F (8 * (i - d0) + b)) else mem0 i)

/-- Coupling invariant during the `Flush` loop after `j` iterations:
`j` further bytes have been emitted, the accumulator has been shifted
down `8*j` bits, and every byte written so far holds its slice of `F`
(zero-padded past bit `La`). -/
def bwFlushInv (mem0 : Nat → Nat) (d0 : Nat) (F : Nat → Bool) (La j : Nat) (s : BitWriter) : Prop :=
  s.dst_ = d0 + 8 * (La / 64) + j ∧
  s.num_buffered_bits_ = La % 64 - 8 * j ∧
  8 * j ≤ La % 64 + 7 ∧
  (∀ t, s.buffered_values_.testBit t
      = (decide (8 * j + t < La % 64) && F (64 * (La / 64) + 8 * j + t))) ∧
  (∀ i, s.mem i = if d0 ≤ i ∧ i < s.dst_
                  then natOfBits 8 (fun b => decide (8 * (i - d0) + b < La) && F (8 * (i - d0) + b))
                  else mem0 i)

theorem natOfBits_testBit (w : Nat) (f : Nat → Bool) (t : Nat) :
    (natOfBits w f).testBit t = (decide (t < w) && f t) := by
  induction w generalizing f t with
  | zero => simp [natOfBits]
  | succ k ih =>
    cases t with
    | zero =>
      rw [Nat.testBit_zero]
      cases h : f 0 <;> simp [natOfBits, h, Nat.add_mul_mod_self_left]
    | succ j =>
      rw [Nat.testBit_succ]
      have hdiv : natOfBits (k+1) f / 2 = natOfBits k (fun i => f (i + 1)) := by
        show ((cond (f 0) 1 0) + 2 * natOfBits k (fun i => f (i + 1))) / 2 = _
        cases f 0 <;> simp <;> omega
      rw [hdiv, ih]
      simp [Nat.succ_lt_succ_iff]

theorem natOfBits_congr (w : Nat) (f g : Nat → Bool) (h : ∀ b, b < w → f b = g b) :
    natOfBits w f = natOfBits w g := by
  apply Nat.eq_of_testBit_eq
  intro i
  rw [natOfBits_testBit, natOfBits_testBit]
  by_cases hi : i < w
  · simp [hi, h i hi]
  · simp [hi]

theorem mod256_testBit (x t : Nat) (h : t < 8) : (x % 256).testBit t = x.testBit t := by
  have h256 : (256 : Nat) = 2 ^ 8 := by norm_num
  rw [h256, Nat.testBit_mod_two_pow]
  simp [h]

theorem bitView_byte (m : Nat → Nat) (a t : Nat) (h : t < 8) :
    bitView m (8 * a + t) = (m a).testBit t := by
  unfold bitView
  have h1 : (8 * a + t) / 8 = a := by omega
  have h2 : (8 * a + t) % 8 = t := by omega
  rw [h1, h2]

theorem testBit_add_mul_256 (b x t : Nat) (hb : b < 256) :
    (b + 256 * x).testBit t = if t < 8 then b.testBit t else x.testBit (t - 8) := by
  have h256 : (256 : Nat) = 2 ^ 8 := by norm_num
  have := Nat.testBit_mul_pow_two_add x (i := 8) (b := b) (by omega) t
  rw [h256, Nat.add_comm b (2 ^ 8 * x)]
  exact this

theorem loadLE_testBit (m : Nat → Nat) (k off t : Nat) :
    (loadLE m off k).testBit t = (decide (t < 8 * k) && bitView m (8 * off + t)) := by
  induction k generalizing off t with
  | zero => simp [loadLE]
  | succ j ih =>
    show ((m off % 256) + 256 * loadLE m (off + 1) j).testBit t = _
    rw [testBit_add_mul_256 _ _ _ (Nat.mod_lt _ (by norm_num))]
    by_cases h8 : t < 8
    · rw [if_pos h8, mod256_testBit _ _ h8, ← bitView_byte m off t h8]
      have : decide (t < 8 * (j + 1)) = true := by simp; omega
      rw [this, Bool.true_and]
    · rw [if_neg h8, ih]
      have harg : 8 * (off + 1) + (t - 8) = 8 * off + t := by omega
      rw [harg]
      have : (decide (t - 8 < 8 * j)) = (decide (t < 8 * (j + 1))) := by
        simp only [decide_eq_decide]; omega
      rw [this]

theorem loadLE_lt (m : Nat → Nat) (k off : Nat) : loadLE m off k < 2 ^ (8 * k) := by
  induction k generalizing off with
  | zero => simp [loadLE]
  | succ j ih =>
    show (m off % 256) + 256 * loadLE m (off + 1) j < 2 ^ (8 * (j + 1))
    have h1 : m off % 256 < 256 := Nat.mod_lt _ (by norm_num)
    have h2 : loadLE m (off + 1) j < 2 ^ (8 * j) := ih off.succ
    have h3 : (2 : Nat) ^ (8 * (j + 1)) = 256 * 2 ^ (8 * j) := by
      rw [show 8 * (j + 1) = 8 + 8 * j by ring, pow_add]
      norm_num
    calc (m off % 256) + 256 * loadLE m (off + 1) j
        < 256 + 256 * loadLE m (off + 1) j := by omega
      _ ≤ 256 * 2 ^ (8 * j) := by
          have : loadLE m (off + 1) j + 1 ≤ 2 ^ (8 * j) := h2
          calc 256 + 256 * loadLE m (off + 1) j = 256 * (loadLE m (off + 1) j + 1) := by ring
            _ ≤ 256 * 2 ^ (8 * j) := Nat.mul_le_mul_left 256 this
      _ = 2 ^ (8 * (j + 1)) := h3.symm

theorem lt_two_pow_of_testBit_char (v n : Nat) (h : ∀ t, n ≤ t → v.testBit t = false) :
    v < 2 ^ n := by
  have : v = v % 2 ^ n := by
    apply Nat.eq_of_testBit_eq
    intro i
    rw [Nat.testBit_mod_two_pow]
    by_cases hi : i < n
    · simp [hi]
    · simp [hi, h i (by omega)]
  rw [this]
  exact Nat.mod_lt _ (Nat.pos_pow_of_pos n (by norm_num))

theorem filter_map_succ_testBit (x w : Nat) :
    ((List.range w).map Nat.succ).filter x.testBit
      = ((List.range w).filter (x / 2).testBit).map Nat.succ := by
  rw [List.filter_map]
  congr 1
  apply List.filter_congr
  intro b _
  show x.testBit b.succ = (x / 2).testBit b
  rw [Nat.testBit_succ]

theorem popcountW_eq_length (w x : Nat) :
    popcountW w x = ((List.range w).filter x.testBit).length := by
  induction w generalizing x with
  | zero => simp [popcountW]
  | succ k ih =>
    rw [List.range_succ_eq_map]
    show x % 2 + popcountW k (x / 2) = (List.filter x.testBit (0 :: (List.range k).map Nat.succ)).length
    rw [List.filter_cons, filter_map_succ_testBit]
    by_cases hx : x % 2 = 1
    · simp only [Nat.testBit_zero, hx]
      simp [ih, hx]
      omega
    · have hx0 : x % 2 = 0 := by omega
      simp only [Nat.testBit_zero, hx0]
      simp [ih, hx0]

theorem pextW_testBit (w : Nat) (v msk t : Nat) :
    (pextW w v msk).testBit t
      = (((List.range w).filter msk.testBit).map v.testBit).getD t false := by
  induction w generalizing v msk t with
  | zero => simp [pextW, List.getD]
  | succ k ih =>
    rw [List.range_succ_eq_map]
    rw [List.filter_cons, filter_map_succ_testBit]
    have h0 : msk.testBit 0 = decide (msk % 2 = 1) := Nat.testBit_zero msk
    have hmap : (((List.range k).filter (msk / 2).testBit).map Nat.succ).map v.testBit
        = ((List.range k).filter (msk / 2).testBit).map (v / 2).testBit := by
      rw [List.map_map]
      apply List.map_congr_left
      intro b _
      show v.testBit b.succ = (v / 2).testBit b
      rw [Nat.testBit_succ]
    by_cases hm : msk % 2 = 1
    · rw [h0, if_pos (show decide (msk % 2 = 1) = true by simp [hm])]
      show (pextW (k+1) v msk).testBit t = ((0 :: ((List.range k).filter (msk / 2).testBit).map Nat.succ).map v.testBit).getD t false
      rw [List.map_cons, hmap]
      have hpext : pextW (k+1) v msk = v % 2 + 2 * pextW k (v / 2) (msk / 2) := by
        show (if msk % 2 = 1 then v % 2 + 2 * pextW k (v / 2) (msk / 2) else pextW k (v / 2) (msk / 2)) = _
        rw [if_pos hm]
      rw [hpext]
      cases t with
      | zero =>
        rw [Nat.testBit_zero]
        have : (v % 2 + 2 * pextW k (v / 2) (msk / 2)) % 2 = v % 2 := by omega
        rw [this]
        show decide (v % 2 = 1) = (v.testBit 0 :: _).getD 0 false
        rw [← Nat.testBit_zero]
        simp [List.getD]
      | succ j =>
        rw [Nat.testBit_succ]
        have hdiv : (v % 2 + 2 * pextW k (v / 2) (msk / 2)) / 2 = pextW k (v / 2) (msk / 2) := by omega
        rw [hdiv, ih]
        simp [List.getD]
    · rw [h0]
      have hm0 : ¬ (decide (msk % 2 = 1) = true) := by simp [hm]
      rw [if_neg hm0]
      rw [hmap]
      have hpext : pextW (k+1) v msk = pextW k (v / 2) (msk / 2) := by
        show (if msk % 2 = 1 then v % 2 + 2 * pextW k (v / 2) (msk / 2) else pextW k (v / 2) (msk / 2)) = _
        rw [if_neg hm]
      rw [hpext, ih]

theorem getD_eq_false_of_ge (l : List Bool) (t : Nat) (h : l.length ≤ t) :
    l.getD t false = false := by
  simp [List.getD, List.getElem?_eq_none h]

theorem pextW_testBit_ge (w v msk t : Nat) (h : popcountW w msk ≤ t) :
    (pextW w v msk).testBit t = false := by
  rw [pextW_testBit]
  apply getD_eq_false_of_ge
  rw [List.length_map, ← popcountW_eq_length]
  exact h

theorem writeByte_natOfBits (x k : Nat) (G : Nat → Bool)
    (h : ∀ b, b < 8 → x.testBit (8 * k + b) = G b) :
    (x >>> (8 * k)) % 256 = natOfBits 8 G := by
  apply Nat.eq_of_testBit_eq
  intro i
  rw [natOfBits_testBit]
  by_cases hi : i < 8
  · rw [mod256_testBit _ _ hi, Nat.testBit_shiftRight, h i hi]
    simp [hi]
  · rw [show (256 : Nat) = 2 ^ 8 by norm_num, Nat.testBit_mod_two_pow]
    simp [hi]

theorem BitWriter.Put_inv (mem0 : Nat → Nat) (d0 : Nat) (F : Nat → Bool) (La : Nat)
    (s : BitWriter) (v nb : Nat)
    (hs : bwInv mem0 d0 F La s) (hnb : nb ≤ 64)
    (hv : ∀ t, v.testBit t = (decide (t < nb) && F (La + t))) :
    bwInv mem0 d0 F (La + nb) (s.Put v nb) := by
  obtain ⟨hpos, hcnt, hbuf, hmem⟩ := hs
  have hr : La % 64 < 64 := Nat.mod_lt _ (by norm_num)
  have hvlt : v < 2 ^ nb := by
    apply lt_two_pow_of_testBit_char
    intro t ht
    rw [hv]
    simp
    omega
  have hvv : v % 2 ^ 64 = v :=
    Nat.mod_eq_of_lt (lt_of_lt_of_le hvlt (Nat.pow_le_pow_right (by norm_num) hnb))
  have hbuf1 : ∀ t,
      (s.buffered_values_ ||| ((v <<< (La % 64)) % 2 ^ 64)).testBit t
        = (decide (t < min 64 (La % 64 + nb)) && F (64 * (La / 64) + t)) := by
    intro t
    rw [Nat.testBit_or, Nat.testBit_mod_two_pow, Nat.testBit_shiftLeft, hbuf]
    by_cases h1 : t < La % 64
    · simp [h1, show ¬ (La % 64 ≤ t) by omega, show t < min 64 (La % 64 + nb) by omega]
    · by_cases h2 : t < 64 ∧ t < La % 64 + nb
      · obtain ⟨h2a, h2b⟩ := h2
        rw [hv]
        have harg : La + (t - La % 64) = 64 * (La / 64) + t := by omega
        rw [harg]
        have hd : decide (t - La % 64 < nb) = true := by simp; omega
        simp [h1, show La % 64 ≤ t by omega, h2a, hd,
              show t < min 64 (La % 64 + nb) by omega]
      · rw [hv]
        have hminf : ¬ (t < min 64 (La % 64 + nb)) := by omega
        rcases Nat.lt_or_ge t 64 with h64 | h64
        · have hf : decide (t - La % 64 < nb) = false := by simp; omega
          simp [h1, hf, hminf]
        · have hf : decide (t < 64) = false := by simp; omega
          simp [h1, hf, hminf]
  show bwInv mem0 d0 F (La + nb) (BitWriter.Put s v nb)
  rw [BitWriter.Put]
  simp only [hvv, hcnt]
  by_cases hov : 64 ≤ La % 64 + nb
  · rw [if_pos hov]
    have hq : (La + nb) / 64 = La / 64 + 1 := by omega
    have hm : (La + nb) % 64 = La % 64 + nb - 64 := by omega
    refine ⟨by simp [hpos, hq]; omega, by simp [hm], ?_, ?_⟩
    · -- accumulator after spilling: remaining high bits of v
      intro t
      simp only
      by_cases hsh : 64 ≤ nb - (La % 64 + nb - 64)
      · rw [if_pos hsh]
        have : La % 64 = 0 := by omega
        have hnb64 : nb = 64 := by omega
        simp [Nat.zero_testBit, hm, this, hnb64]
      · rw [if_neg hsh]
        rw [Nat.testBit_shiftRight, hv]
        have harg : La + (nb - (La % 64 + nb - 64) + t) = 64 * ((La + nb) / 64) + t := by omega
        rw [harg, hq, hm]
        have : (decide (nb - (La % 64 + nb - 64) + t < nb)) = (decide (t < La % 64 + nb - 64)) := by
          simp only [decide_eq_decide]
          omega
        rw [this]
    · -- memory: eight new bytes spilled from the accumulator
      intro i
      simp only [writeBytesLE, hpos]
      by_cases hin : d0 + 8 * (La / 64) ≤ i ∧ i < d0 + 8 * (La / 64) + 8
      · rw [if_pos hin]
        have hk : i - (d0 + 8 * (La / 64)) < 8 := by omega
        have hd0i : d0 ≤ i ∧ i < d0 + 8 * ((La + nb) / 64) := by
          constructor
          · omega
          · rw [hq]; omega
        rw [if_pos hd0i]
        apply writeByte_natOfBits
        intro b hb
        rw [hbuf1]
        have h64 : 8 * (i - (d0 + 8 * (La / 64))) + b < 64 := by omega
        have harg : 64 * (La / 64) + (8 * (i - (d0 + 8 * (La / 64))) + b)
            = 8 * (i - d0) + b := by omega
        simp [show 8 * (i - (d0 + 8 * (La / 64))) + b < min 64 (La % 64 + nb) by omega, harg]
      · rw [if_neg hin, hmem]
        have hq8 : d0 + 8 * ((La + nb) / 64) = d0 + 8 * (La / 64) + 8 := by rw [hq]; ring
        by_cases hold : d0 ≤ i ∧ i < d0 + 8 * (La / 64)
        · rw [if_pos hold, if_pos (by omega)]
        · rw [if_neg hold, if_neg (by omega)]
  · rw [if_neg hov]
    have hq : (La + nb) / 64 = La / 64 := by omega
    have hm : (La + nb) % 64 = La % 64 + nb := by omega
    refine ⟨by simp [hpos, hq], by simp [hm], ?_, ?_⟩
    · intro t
      simp only
      rw [hbuf1, hm, hq]
      have hmin : min 64 (La % 64 + nb) = La % 64 + nb := by omega
      rw [hmin]
    · intro i
      simp only
      rw [hmem, hq]

theorem bwInv_flushInv (mem0 : Nat → Nat) (d0 : Nat) (F : Nat → Bool) (La : Nat)
    (s : BitWriter) (hs : bwInv mem0 d0 F La s) : bwFlushInv mem0 d0 F La 0 s := by
  obtain ⟨hpos, hcnt, hbuf, hmem⟩ := hs
  refine ⟨by omega, by omega, by omega, ?_, ?_⟩
  · intro t
    rw [hbuf]
    have h1 : 8 * 0 + t = t := by omega
    have h2 : 64 * (La / 64) + 8 * 0 + t = 64 * (La / 64) + t := by omega
    rw [h1, h2]
  · intro i
    rw [hmem, hpos]
    by_cases hin : d0 ≤ i ∧ i < d0 + 8 * (La / 64)
    · rw [if_pos hin, if_pos hin]
      apply natOfBits_congr
      intro b hb
      have : 8 * (i - d0) + b < La := by omega
      simp [this]
    · rw [if_neg hin, if_neg hin]

theorem flushStep_inv (mem0 : Nat → Nat) (d0 : Nat) (F : Nat → Bool) (La j : Nat)
    (s : BitWriter) (hs : bwFlushInv mem0 d0 F La j s)
    (h0 : 0 < s.num_buffered_bits_) :
    bwFlushInv mem0 d0 F La (j + 1) s.flushStep := by
  obtain ⟨hpos, hcnt, hj, hbuf, hmem⟩ := hs
  rw [hcnt] at h0
  refine ⟨?_, ?_, by omega, ?_, ?_⟩
  · show s.dst_ + 1 = d0 + 8 * (La / 64) + (j + 1)
    omega
  · show s.num_buffered_bits_ - 8 = La % 64 - 8 * (j + 1)
    omega
  · intro t
    show (s.buffered_values_ >>> 8).testBit t = _
    rw [Nat.testBit_shiftRight, hbuf]
    have h1 : decide (8 * j + (8 + t) < La % 64) = decide (8 * (j + 1) + t < La % 64) := by
      simp only [decide_eq_decide]; omega
    have h2 : 64 * (La / 64) + 8 * j + (8 + t) = 64 * (La / 64) + 8 * (j + 1) + t := by omega
    rw [h1, h2]
  · intro i
    show write1 s.mem s.dst_ (s.buffered_values_ % 256) i = _
    unfold write1
    by_cases heq : i = s.dst_
    · rw [if_pos heq]
      have hin : d0 ≤ i ∧ i < s.flushStep.dst_ := by
        constructor
        · omega
        · show i < s.dst_ + 1
          omega
      rw [if_pos hin]
      have hbyte : s.buffered_values_ % 256 = (s.buffered_values_ >>> (8 * 0)) % 256 := by norm_num
      rw [hbyte]
      apply writeByte_natOfBits
      intro b hb
      rw [hbuf]
      have h1 : 8 * 0 + b = b := by omega
      rw [h1]
      have h2 : decide (8 * j + b < La % 64) = decide (8 * (i - d0) + b < La) := by
        simp only [decide_eq_decide]; omega
      have h3 : 64 * (La / 64) + 8 * j + b = 8 * (i - d0) + b := by omega
      rw [h2, h3]
    · rw [if_neg heq, hmem]
      have hdst1 : s.flushStep.dst_ = s.dst_ + 1 := rfl
      by_cases hin : d0 ≤ i ∧ i < s.dst_
      · rw [if_pos hin, if_pos (by rw [hdst1]; omega)]
      · rw [if_neg hin, if_neg (by rw [hdst1]; omega)]

theorem flushInv_done (mem0 : Nat → Nat) (d0 : Nat) (F : Nat → Bool) (La j : Nat)
    (s : BitWriter) (hs : bwFlushInv mem0 d0 F La j s)
    (h0 : s.num_buffered_bits_ = 0) :
    ∀ i, s.mem i = if d0 ≤ i ∧ i < d0 + (La + 7) / 8
                   then natOfBits 8 (fun b => decide (8 * (i - d0) + b < La) && F (8 * (i - d0) + b))
                   else mem0 i := by
  obtain ⟨hpos, hcnt, hj, _, hmem⟩ := hs
  have hdst : s.dst_ = d0 + (La + 7) / 8 := by omega
  intro i
  rw [hmem, hdst]

theorem flushGo_inv (mem0 : Nat → Nat) (d0 : Nat) (F : Nat → Bool) (La : Nat) :
    ∀ fuel j s, s.num_buffered_bits_ ≤ fuel → bwFlushInv mem0 d0 F La j s →
    ∀ i, (BitWriter.flushGo fuel s).mem i
      = if d0 ≤ i ∧ i < d0 + (La + 7) / 8
        then natOfBits 8 (fun b => decide (8 * (i - d0) + b < La) && F (8 * (i - d0) + b))
        else mem0 i := by
  intro fuel
  induction fuel with
  | zero =>
    intro j s hf hs i
    show s.mem i = _
    exact flushInv_done mem0 d0 F La j s hs (by omega) i
  | succ k ih =>
    intro j s hf hs i
    show (if 0 < s.num_buffered_bits_ then BitWriter.flushGo k s.flushStep else s).mem i = _
    by_cases h0 : 0 < s.num_buffered_bits_
    · rw [if_pos h0]
      apply ih (j + 1) s.flushStep ?_ (flushStep_inv mem0 d0 F La j s hs h0)
      show s.num_buffered_bits_ - 8 ≤ k
      omega
    · rw [if_neg h0]
      exact flushInv_done mem0 d0 F La j s hs (by omega) i

theorem BitWriter.Flush_mem (mem0 : Nat → Nat) (d0 : Nat) (F : Nat → Bool) (La : Nat)
    (s : BitWriter) (hs : bwInv mem0 d0 F La s) :
    ∀ i, s.Flush.mem i
      = if d0 ≤ i ∧ i < d0 + (La + 7) / 8
        then natOfBits 8 (fun b => decide (8 * (i - d0) + b < La) && F (8 * (i - d0) + b))
        else mem0 i :=
  flushGo_inv mem0 d0 F La s.num_buffered_bits_ 0 s (le_refl _) (bwInv_flushInv mem0 d0 F La s hs)

theorem selSeg_eq (S B : Nat → Bool) (a w : Nat) :
    ((List.range' a w).filter S).map B
      = ((List.range w).filter (fun b => S (a + b))).map (fun b => B (a + b)) := by
  rw [List.range'_eq_map_range, List.filter_map, List.map_map]
  rfl

theorem wordChunk_eq (nn sel : Nat → Nat) (i : Nat) :
    ((List.range 64).filter (loadLE sel (i * 8) 8).testBit).map (loadLE nn (i * 8) 8).testBit
      = ((List.range' (64 * i) 64).filter (fun r => bitView sel r)).map (fun r => bitView nn r) := by
  rw [selSeg_eq]
  have hf : (List.range 64).filter (loadLE sel (i * 8) 8).testBit
      = (List.range 64).filter (fun b => bitView sel (64 * i + b)) := by
    apply List.filter_congr
    intro b hb
    have hb64 : b < 64 := List.mem_range.mp hb
    rw [loadLE_testBit]
    rw [show 8 * (i * 8) + b = 64 * i + b by ring_nf]
    simp [hb64]
  rw [hf]
  apply List.map_congr_left
  intro b hb
  have hb64 : b < 64 := List.mem_range.mp (List.mem_of_mem_filter hb)
  rw [loadLE_testBit]
  rw [show 8 * (i * 8) + b = 64 * i + b by ring_nf]
  simp [hb64]

theorem byteChunk_eq (nn sel : Nat → Nat) (off : Nat) :
    ((List.range 64).filter (sel off % 256).testBit).map (nn off % 256).testBit
      = ((List.range' (8 * off) 8).filter (fun r => bitView sel r)).map (fun r => bitView nn r) := by
  have hsplit : List.range 64 = List.range 8 ++ List.range' 8 56 := by
    rw [List.range_eq_range']
    simpa using (List.range'_append 0 8 56 1).symm
  rw [hsplit, List.filter_append]
  have hnil : (List.range' 8 56).filter (sel off % 256).testBit = [] := by
    rw [List.filter_eq_nil_iff]
    intro a ha
    have ha8 : 8 ≤ a := (List.mem_range'_1.mp ha).1
    have hlt : sel off % 256 < 2 ^ a := by
      calc sel off % 256 < 256 := Nat.mod_lt _ (by norm_num)
        _ = 2 ^ 8 := by norm_num
        _ ≤ 2 ^ a := Nat.pow_le_pow_right (by norm_num) ha8
    simp [Nat.testBit_lt_two_pow hlt]
  rw [hnil, List.append_nil, selSeg_eq]
  have hf : (List.range 8).filter (sel off % 256).testBit
      = (List.range 8).filter (fun b => bitView sel (8 * off + b)) := by
    apply List.filter_congr
    intro b hb
    have hb8 : b < 8 := List.mem_range.mp hb
    rw [mod256_testBit _ _ hb8, ← bitView_byte sel off b hb8]
  rw [hf]
  apply List.map_congr_left
  intro b hb
  have hb8 : b < 8 := List.mem_range.mp (List.mem_of_mem_filter hb)
  rw [mod256_testBit _ _ hb8, ← bitView_byte nn off b hb8]

theorem popcountW_le (w x : Nat) : popcountW w x ≤ w := by
  rw [popcountW_eq_length]
  calc ((List.range w).filter x.testBit).length ≤ (List.range w).length :=
        List.length_filter_le _ _
    _ = w := List.length_range w

theorem wordChunk_popcount (sel : Nat → Nat) (i : Nat) :
    popcountW 64 (loadLE sel (i * 8) 8)
      = ((List.range' (64 * i) 64).filter (fun r => bitView sel r)).length := by
  have h := congrArg List.length (wordChunk_eq sel sel i)
  rw [List.length_map, List.length_map] at h
  rw [popcountW_eq_length]
  exact h

theorem byteChunk_popcount (sel : Nat → Nat) (off : Nat) :
    popcountW 64 (sel off % 256)
      = ((List.range' (8 * off) 8).filter (fun r => bitView sel r)).length := by
  have h := congrArg List.length (byteChunk_eq sel sel off)
  rw [List.length_map, List.length_map] at h
  rw [popcountW_eq_length]
  exact h

theorem selRows_append (sel : Nat → Nat) (a w : Nat) :
    selRows sel (a + w)
      = selRows sel a ++ (List.range' a w).filter (fun r => bitView sel r) := by
  unfold selRows
  rw [List.range_eq_range', List.range_eq_range']
  rw [show List.range' 0 (a + w) = List.range' 0 a ++ List.range' a w by
        simpa [Nat.add_comm w a] using (List.range'_append 0 a w 1).symm]
  rw [List.filter_append]

theorem streamBits_length (nn sel : Nat → Nat) (n : Nat) :
    (streamBits nn sel n).length = (selRows sel n).length := List.length_map _ _

theorem streamBits_getD_chunk (nn sel : Nat → Nat) (P a w t : Nat) (h : a + w ≤ P)
    (ht : t < ((List.range' a w).filter (fun r => bitView sel r)).length) :
    (streamBits nn sel P).getD ((selRows sel a).length + t) false
      = (((List.range' a w).filter (fun r => bitView sel r)).map (fun r => bitView nn r)).getD t false := by
  have hP : P = (a + w) + (P - (a + w)) := by omega
  unfold streamBits
  rw [hP, selRows_append sel (a + w) (P - (a + w)), selRows_append sel a w]
  rw [List.map_append, List.map_append]
  have hlen1 : ((selRows sel a).map (fun r => bitView nn r)).length = (selRows sel a).length :=
    List.length_map _ _
  have hlen2 : (((List.range' a w).filter (fun r => bitView sel r)).map
      (fun r => bitView nn r)).length
      = ((List.range' a w).filter (fun r => bitView sel r)).length := List.length_map _ _
  rw [List.getD, List.getD, List.get?_eq_getElem?, List.get?_eq_getElem?]
  rw [List.append_assoc]
  rw [List.getElem?_append_right (by omega : ((selRows sel a).map (fun r => bitView nn r)).length ≤ (selRows sel a).length + t)]
  rw [hlen1]
  have hsub : (selRows sel a).length + t - (selRows sel a).length = t := by omega
  rw [hsub]
  rw [List.getElem?_append,
      if_pos (show t < (((List.range' a w).filter (fun r => bitView sel r)).map
        (fun r => bitView nn r)).length by omega)]

theorem selRows_zero (sel : Nat → Nat) : selRows sel 0 = [] := rfl

theorem BitWriter.init_inv (dst : Nat → Nat) (dst_idx : Nat) (bits : List Bool) :
    bwInv dst (dst_idx / 8) (outBit dst dst_idx bits) (dst_idx % 8)
      (BitWriter.init dst dst_idx) := by
  have hpre : dst_idx % 8 < 8 := Nat.mod_lt _ (by norm_num)
  have h0 : bwInv dst (dst_idx / 8) (outBit dst dst_idx bits) 0
      { mem := dst, dst_ := dst_idx / 8, buffered_values_ := 0, num_buffered_bits_ := 0 } := by
    refine ⟨by simp, by simp, ?_, ?_⟩
    · intro t
      simp [Nat.zero_testBit]
    · intro i
      rw [if_neg (by omega)]
  have hput := BitWriter.Put_inv dst (dst_idx / 8) (outBit dst dst_idx bits) 0
    { mem := dst, dst_ := dst_idx / 8, buffered_values_ := 0, num_buffered_bits_ := 0 }
    ((dst (dst_idx / 8) % 256) &&& ((1 <<< (dst_idx % 8)) - 1)) (dst_idx % 8)
    h0 (by omega) ?_
  · show bwInv dst (dst_idx / 8) (outBit dst dst_idx bits) (dst_idx % 8) (BitWriter.init dst dst_idx)
    have : BitWriter.init dst dst_idx
        = BitWriter.Put
            { mem := dst, dst_ := dst_idx / 8, buffered_values_ := 0, num_buffered_bits_ := 0 }
            ((dst (dst_idx / 8) % 256) &&& ((1 <<< (dst_idx % 8)) - 1)) (dst_idx % 8) := rfl
    rw [this]
    simpa using hput
  · intro t
    rw [Nat.testBit_and]
    rw [show (1 : Nat) <<< (dst_idx % 8) = 2 ^ (dst_idx % 8) by
          rw [Nat.shiftLeft_eq, one_mul]]
    rw [Nat.testBit_two_pow_sub_one]
    by_cases ht : t < dst_idx % 8
    · have ht8 : t < 8 := by omega
      rw [mod256_testBit _ _ ht8]
      have hout : outBit dst dst_idx bits (0 + t) = bitView dst (8 * (dst_idx / 8) + t) := by
        unfold outBit
        rw [if_pos (by omega)]
        rw [show 0 + t = t by omega]
      rw [hout, bitView_byte dst (dst_idx / 8) t ht8]
      simp [ht]
    · simp [ht]

theorem foldl_range_succ (g : BitWriter → Nat → BitWriter) (s : BitWriter) (k : Nat) :
    (List.range (k + 1)).foldl g s = g ((List.range k).foldl g s) k := by
  rw [List.range_succ, List.foldl_append]
  rfl

theorem wordLoop_inv (f : Nat → Nat → Nat)
    (hf : ∀ v m, v < 2 ^ 64 → m < 2 ^ 64 → f v m = pextW 64 v m)
    (nn sel mem0 : Nat → Nat) (dst_idx P : Nat) :
    ∀ k s, 64 * k ≤ P →
    bwInv mem0 (dst_idx / 8) (outBit mem0 dst_idx (streamBits nn sel P)) (dst_idx % 8) s →
    bwInv mem0 (dst_idx / 8) (outBit mem0 dst_idx (streamBits nn sel P))
      (dst_idx % 8 + (selRows sel (64 * k)).length)
      ((List.range k).foldl (copyWordStep f nn sel) s) := by
  intro k
  induction k with
  | zero =>
    intro s hk hs
    simpa [selRows_zero] using hs
  | succ j ih =>
    intro s hk hs
    rw [foldl_range_succ]
    have hj : 64 * j ≤ P := by omega
    have hmid := ih s hj hs
    have hseg : 64 * j + 64 ≤ P := by omega
    unfold copyWordStep
    have hnb : popcountW 64 (loadLE sel (j * 8) 8) ≤ 64 := popcountW_le _ _
    have hlen : popcountW 64 (loadLE sel (j * 8) 8)
        = ((List.range' (64 * j) 64).filter (fun r => bitView sel r)).length :=
      wordChunk_popcount sel j
    have hput := BitWriter.Put_inv mem0 (dst_idx / 8)
      (outBit mem0 dst_idx (streamBits nn sel P))
      (dst_idx % 8 + (selRows sel (64 * j)).length)
      ((List.range j).foldl (copyWordStep f nn sel) s)
      (f (loadLE nn (j * 8) 8) (loadLE sel (j * 8) 8))
      (popcountW 64 (loadLE sel (j * 8) 8))
      hmid hnb ?_
    · have harr : dst_idx % 8 + (selRows sel (64 * j)).length
          + popcountW 64 (loadLE sel (j * 8) 8)
          = dst_idx % 8 + (selRows sel (64 * (j + 1))).length := by
        rw [hlen]
        rw [show 64 * (j + 1) = 64 * j + 64 by ring, selRows_append, List.length_append]
        omega
      rw [harr] at hput
      exact hput
    · intro t
      have h1 : loadLE nn (j * 8) 8 < 2 ^ 64 := by
        have := loadLE_lt nn 8 (j * 8)
        norm_num at this
        exact this
      have h2 : loadLE sel (j * 8) 8 < 2 ^ 64 := by
        have := loadLE_lt sel 8 (j * 8)
        norm_num at this
        exact this
      rw [hf _ _ h1 h2, pextW_testBit, wordChunk_eq nn sel j]
      by_cases ht : t < popcountW 64 (loadLE sel (j * 8) 8)
      · have hseglen : t < ((List.range' (64 * j) 64).filter (fun r => bitView sel r)).length := by
          rw [← hlen]
          exact ht
        have hchunk := streamBits_getD_chunk nn sel P (64 * j) 64 t hseg hseglen
        have hF : outBit mem0 dst_idx (streamBits nn sel P)
              (dst_idx % 8 + (selRows sel (64 * j)).length + t)
            = (streamBits nn sel P).getD ((selRows sel (64 * j)).length + t) false := by
          unfold outBit
          rw [if_neg (by omega)]
          rw [show dst_idx % 8 + (selRows sel (64 * j)).length + t - dst_idx % 8
                = (selRows sel (64 * j)).length + t by omega]
        rw [hF, hchunk]
        simp [ht]
      · have hge : (((List.range' (64 * j) 64).filter (fun r => bitView sel r)).map
            (fun r => bitView nn r)).length ≤ t := by
          rw [List.length_map, ← hlen]
          omega
        rw [getD_eq_false_of_ge _ _ hge]
        simp [ht]

theorem remLoop_inv (f : Nat → Nat → Nat)
    (hf : ∀ v m, v < 2 ^ 64 → m < 2 ^ 64 → f v m = pextW 64 v m)
    (nn sel mem0 : Nat → Nat) (dst_idx P : Nat) :
    ∀ fuel off rem s,
    rem ≤ fuel →
    8 * off + 8 * ((rem + 7) / 8) ≤ P →
    bwInv mem0 (dst_idx / 8) (outBit mem0 dst_idx (streamBits nn sel P))
      (dst_idx % 8 + (selRows sel (8 * off)).length) s →
    bwInv mem0 (dst_idx / 8) (outBit mem0 dst_idx (streamBits nn sel P))
      (dst_idx % 8 + (selRows sel (8 * off + 8 * ((rem + 7) / 8))).length)
      (copyRemGo f nn sel fuel off rem s) := by
  intro fuel
  induction fuel with
  | zero =>
    intro off rem s hfu hP hs
    have hrem : rem = 0 := by omega
    subst hrem
    rw [show 8 * off + 8 * ((0 + 7) / 8) = 8 * off by norm_num]
    exact hs
  | succ k ih =>
    intro off rem s hfu hP hs
    have hstep : copyRemGo f nn sel (k + 1) off rem s
        = if 0 < rem then
            copyRemGo f nn sel k (off + 1) (rem - 8)
              (s.Put (f (nn off % 256) (sel off % 256)) (popcountW 64 (sel off % 256)))
          else s := rfl
    rw [hstep]
    by_cases h0 : 0 < rem
    · rw [if_pos h0]
      have hnb : popcountW 64 (sel off % 256) ≤ 64 := popcountW_le _ _
      have hlen : popcountW 64 (sel off % 256)
          = ((List.range' (8 * off) 8).filter (fun r => bitView sel r)).length :=
        byteChunk_popcount sel off
      have hseg : 8 * off + 8 ≤ P := by omega
      have hput := BitWriter.Put_inv mem0 (dst_idx / 8)
        (outBit mem0 dst_idx (streamBits nn sel P))
        (dst_idx % 8 + (selRows sel (8 * off)).length) s
        (f (nn off % 256) (sel off % 256)) (popcountW 64 (sel off % 256))
        hs hnb ?_
      · have harr : dst_idx % 8 + (selRows sel (8 * off)).length + popcountW 64 (sel off % 256)
            = dst_idx % 8 + (selRows sel (8 * (off + 1))).length := by
          rw [hlen, show 8 * (off + 1) = 8 * off + 8 by ring, selRows_append, List.length_append]
          omega
        rw [harr] at hput
        have hrec := ih (off + 1) (rem - 8) _ (by omega) (by omega) hput
        rw [show 8 * off + 8 * ((rem + 7) / 8) = 8 * (off + 1) + 8 * ((rem - 8 + 7) / 8) by omega]
        exact hrec
      · intro t
        have h1 : nn off % 256 < 2 ^ 64 := by
          calc nn off % 256 < 256 := Nat.mod_lt _ (by norm_num)
            _ < 2 ^ 64 := by norm_num
        have h2 : sel off % 256 < 2 ^ 64 := by
          calc sel off % 256 < 256 := Nat.mod_lt _ (by norm_num)
            _ < 2 ^ 64 := by norm_num
        rw [hf _ _ h1 h2, pextW_testBit, byteChunk_eq nn sel off]
        by_cases ht : t < popcountW 64 (sel off % 256)
        · have hseglen : t < ((List.range' (8 * off) 8).filter (fun r => bitView sel r)).length := by
            rw [← hlen]
            exact ht
          have hchunk := streamBits_getD_chunk nn sel P (8 * off) 8 t hseg hseglen
          have hF : outBit mem0 dst_idx (streamBits nn sel P)
                (dst_idx % 8 + (selRows sel (8 * off)).length + t)
              = (streamBits nn sel P).getD ((selRows sel (8 * off)).length + t) false := by
            unfold outBit
            rw [if_neg (by omega)]
            rw [show dst_idx % 8 + (selRows sel (8 * off)).length + t - dst_idx % 8
                  = (selRows sel (8 * off)).length + t by omega]
          rw [hF, hchunk]
          simp [ht]
        · have hge : (((List.range' (8 * off) 8).filter (fun r => bitView sel r)).map
              (fun r => bitView nn r)).length ≤ t := by
            rw [List.length_map, ← hlen]
            omega
          rw [getD_eq_false_of_ge _ _ hge]
          simp [ht]
    · rw [if_neg h0]
      rw [show 8 * off + 8 * ((rem + 7) / 8) = 8 * off by omega]
      exact hs

theorem CopyNonNullBitmapImpl_spec (f : Nat → Nat → Nat)
    (hf : ∀ v m, v < 2 ^ 64 → m < 2 ^ 64 → f v m = pextW 64 v m)
    (nn sel dst : Nat → Nat) (dst_idx n_rows : Nat) :
    ∀ i, CopyNonNullBitmapImpl f nn sel dst_idx n_rows dst i
      = copySpecMem dst dst_idx (streamBits nn sel (processedRows n_rows)) i := by
  intro i
  have hPdef : processedRows n_rows = 8 * ((n_rows + 7) / 8) := rfl
  have h0 := BitWriter.init_inv dst dst_idx (streamBits nn sel (processedRows n_rows))
  have hw := wordLoop_inv f hf nn sel dst dst_idx (processedRows n_rows) (n_rows / 64)
    (BitWriter.init dst dst_idx) (by rw [hPdef]; omega) h0
  have hw2 : bwInv dst (dst_idx / 8)
      (outBit dst dst_idx (streamBits nn sel (processedRows n_rows)))
      (dst_idx % 8 + (selRows sel (8 * (n_rows / 64 * 8))).length)
      ((List.range (n_rows / 64)).foldl (copyWordStep f nn sel) (BitWriter.init dst dst_idx)) := by
    rw [show 8 * (n_rows / 64 * 8) = 64 * (n_rows / 64) by ring]
    exact hw
  have hr := remLoop_inv f hf nn sel dst dst_idx (processedRows n_rows)
    (n_rows % 64) (n_rows / 64 * 8) (n_rows % 64) _ (le_refl _)
    (by rw [hPdef]; omega) hw2
  have hr2 : bwInv dst (dst_idx / 8)
      (outBit dst dst_idx (streamBits nn sel (processedRows n_rows)))
      (dst_idx % 8 + (streamBits nn sel (processedRows n_rows)).length)
      (copyRemGo f nn sel (n_rows % 64) (n_rows / 64 * 8) (n_rows % 64)
        ((List.range (n_rows / 64)).foldl (copyWordStep f nn sel) (BitWriter.init dst dst_idx))) := by
    rw [streamBits_length]
    rw [show 8 * (n_rows / 64 * 8) + 8 * ((n_rows % 64 + 7) / 8) = processedRows n_rows by
          rw [hPdef]; omega] at hr
    exact hr
  have hfl := BitWriter.Flush_mem dst (dst_idx / 8)
    (outBit dst dst_idx (streamBits nn sel (processedRows n_rows)))
    (dst_idx % 8 + (streamBits nn sel (processedRows n_rows)).length) _ hr2
  show (copyRemGo f nn sel (n_rows % 64) (n_rows / 64 * 8) (n_rows % 64)
        ((List.range (n_rows / 64)).foldl (copyWordStep f nn sel)
          (BitWriter.init dst dst_idx))).Flush.mem i
      = copySpecMem dst dst_idx (streamBits nn sel (processedRows n_rows)) i
  rw [hfl i]
  rfl

theorem CopyNonNullBitmap_spec (method : PextMethod) (nn sel dst : Nat → Nat)
    (dst_idx n_rows : Nat) :
    ∀ i, CopyNonNullBitmap method nn sel dst_idx n_rows dst i
      = copySpecMem dst dst_idx (streamBits nn sel (processedRows n_rows)) i := by
  cases method with
  | kPextInstruction =>
    apply CopyNonNullBitmapImpl_spec
    intro v m hv hm
    unfold PextInstruction.call
    rw [Nat.mod_eq_of_lt hv, Nat.mod_eq_of_lt hm]
  | kClmul =>
    apply CopyNonNullBitmapImpl_spec
    intro v m hv hm
    unfold zp7_pext_64_clmul
    rw [Nat.mod_eq_of_lt hv, Nat.mod_eq_of_lt hm]
  | kSimple =>
    apply CopyNonNullBitmapImpl_spec
    intro v m hv hm
    unfold zp7_pext_64_simple
    rw [Nat.mod_eq_of_lt hv, Nat.mod_eq_of_lt hm]

theorem getD_map_bitView (g : Nat → Bool) (l : List Nat) (j : Nat) (h : j < l.length) :
    (l.map g).getD j false = g (l.getD j 0) := by
  rw [List.getD, List.getD, List.get?_eq_getElem?, List.get?_eq_getElem?, List.getElem?_map]
  rw [List.getElem?_eq_getElem h]
  simp

theorem selRows_length_mono (sel : Nat → Nat) (a b : Nat) (h : a ≤ b) :
    (selRows sel a).length ≤ (selRows sel b).length := by
  rw [show b = a + (b - a) by omega, selRows_append, List.length_append]
  omega

theorem n_rows_le_processed (n_rows : Nat) : n_rows ≤ processedRows n_rows := by
  show n_rows ≤ 8 * ((n_rows + 7) / 8)
  omega

/-- C1: for every non-null bitmap, selection bitmap, destination bit
offset and row count, the three bit-extraction strategies (hardware pext
instruction, carry-less-multiply software, bit-by-bit software) produce
byte-identical destination-buffer contents: every byte of the destination
agrees between the three runs of `CopyNonNullBitmap`. -/
theorem c1_strategies_byte_identical (non_null_bitmap sel_bitmap : Nat → Nat)
    (dst_idx n_rows : Nat) (dst : Nat → Nat) (i : Nat) :
    CopyNonNullBitmap PextMethod.kPextInstruction non_null_bitmap sel_bitmap dst_idx n_rows dst i
      = CopyNonNullBitmap PextMethod.kClmul non_null_bitmap sel_bitmap dst_idx n_rows dst i
    ∧ CopyNonNullBitmap PextMethod.kClmul non_null_bitmap sel_bitmap dst_idx n_rows dst i
      = CopyNonNullBitmap PextMethod.kSimple non_null_bitmap sel_bitmap dst_idx n_rows dst i := by
  constructor
  · rw [CopyNonNullBitmap_spec, CopyNonNullBitmap_spec]
  · rw [CopyNonNullBitmap_spec, CopyNonNullBitmap_spec]

theorem selRows_eq_range' (sel : Nat → Nat) (n : Nat) :
    (List.range' 0 n).filter (fun r => bitView sel r) = selRows sel n := by
  unfold selRows
  rw [List.range_eq_range']

/-- C2: after `CopyNonNullBitmap`, with `r_0 < r_1 < ...` the positions of
set selection bits among the first `n_rows` rows, bit `dst_idx + j` of the
destination equals bit `r_j` of the non-null bitmap for every `j < k`
(the selected rows' non-null bits, bit-packed with no gaps, from bit
`dst_idx` on), and every pre-existing destination bit below `dst_idx`
within `dst_idx`'s byte is preserved. -/
theorem c2_compaction_functional_correctness (method : PextMethod)
    (non_null_bitmap sel_bitmap : Nat → Nat) (dst_idx n_rows : Nat) (dst : Nat → Nat) :
    (∀ j, j < (selRows sel_bitmap n_rows).length →
      bitView (CopyNonNullBitmap method non_null_bitmap sel_bitmap dst_idx n_rows dst)
          (dst_idx + j)
        = bitView non_null_bitmap ((selRows sel_bitmap n_rows).getD j 0))
    ∧ (∀ t, 8 * (dst_idx / 8) ≤ t → t < dst_idx →
      bitView (CopyNonNullBitmap method non_null_bitmap sel_bitmap dst_idx n_rows dst) t
        = bitView dst t) := by
  have hP := n_rows_le_processed n_rows
  have hklen : (selRows sel_bitmap n_rows).length
      ≤ (streamBits non_null_bitmap sel_bitmap (processedRows n_rows)).length := by
    rw [streamBits_length]
    exact selRows_length_mono _ _ _ hP
  constructor
  · intro j hj
    show (CopyNonNullBitmap method non_null_bitmap sel_bitmap dst_idx n_rows dst
        ((dst_idx + j) / 8)).testBit ((dst_idx + j) % 8) = _
    rw [CopyNonNullBitmap_spec]
    unfold copySpecMem
    rw [if_pos (by constructor <;> omega)]
    rw [natOfBits_testBit]
    rw [show 8 * ((dst_idx + j) / 8 - dst_idx / 8) + (dst_idx + j) % 8
          = dst_idx % 8 + j by omega]
    rw [show decide ((dst_idx + j) % 8 < 8) = true by simp; omega, Bool.true_and]
    rw [show decide (dst_idx % 8 + j < dst_idx % 8
          + (streamBits non_null_bitmap sel_bitmap (processedRows n_rows)).length) = true by
            simp; omega, Bool.true_and]
    unfold outBit
    rw [if_neg (by omega)]
    rw [show dst_idx % 8 + j - dst_idx % 8 = j by omega]
    have hchunk := streamBits_getD_chunk non_null_bitmap sel_bitmap (processedRows n_rows)
      0 n_rows j (by omega)
      (by rw [selRows_eq_range']; exact hj)
    rw [selRows_zero] at hchunk
    simp only [List.length_nil, Nat.zero_add] at hchunk
    rw [hchunk, selRows_eq_range' sel_bitmap]
    exact getD_map_bitView _ _ _ hj
  · intro t ht1 ht2
    show (CopyNonNullBitmap method non_null_bitmap sel_bitmap dst_idx n_rows dst
        (t / 8)).testBit (t % 8) = _
    rw [CopyNonNullBitmap_spec]
    unfold copySpecMem
    rw [if_pos (by constructor <;> omega)]
    rw [natOfBits_testBit]
    rw [show 8 * (t / 8 - dst_idx / 8) + t % 8 = t - 8 * (dst_idx / 8) by omega]
    rw [show decide (t % 8 < 8) = true by simp; omega, Bool.true_and]
    rw [show decide (t - 8 * (dst_idx / 8) < dst_idx % 8
          + (streamBits non_null_bitmap sel_bitmap (processedRows n_rows)).length) = true by
            simp; omega, Bool.true_and]
    unfold outBit
    rw [if_pos (by omega)]
    show bitView dst (8 * (dst_idx / 8) + (t - 8 * (dst_idx / 8))) = bitView dst t
    rw [show 8 * (dst_idx / 8) + (t - 8 * (dst_idx / 8)) = t by omega]

/-- C3 counterexample: with `n_rows = 1`, the two selection bitmaps
`0x01` and `0x03` agree on the first (and only) row's bit, and the
non-null bitmaps are identical, yet the destination buffers differ: the
remainder loop reads the whole first byte of the selection bitmap, so
bit 1 (beyond `n_rows`) changes the output. -/
theorem c3_counterexample :
    bitView (fun _ => 2) 0 = bitView (fun _ => 2) 0
    ∧ bitView (fun _ => 1) 0 = bitView (fun _ => 3) 0
    ∧ CopyNonNullBitmap PextMethod.kSimple (fun _ => 2) (fun _ => 1) 0 1 (fun _ => 0) 0
      ≠ CopyNonNullBitmap PextMethod.kSimple (fun _ => 2) (fun _ => 3) 0 1 (fun _ => 0) 0 :=
  ⟨rfl, by decide, by decide⟩

/-- C3 amended: the output of the compaction depends only on the first
`⌈n_rows/8⌉` bytes (i.e. the first `8*⌈n_rows/8⌉` bits) of its two bitmap
inputs: runs whose non-null bitmaps and selection bitmaps agree on those
bytes produce identical destination buffers; the compaction never reads
beyond the byte containing bit `n_rows - 1`. -/
theorem c3_reads_only_processed_bytes (method : PextMethod)
    (nn1 nn2 sel1 sel2 dst : Nat → Nat) (dst_idx n_rows : Nat)
    (hnn : ∀ j, j < (n_rows + 7) / 8 → nn1 j = nn2 j)
    (hsel : ∀ j, j < (n_rows + 7) / 8 → sel1 j = sel2 j) :
    ∀ i, CopyNonNullBitmap method nn1 sel1 dst_idx n_rows dst i
      = CopyNonNullBitmap method nn2 sel2 dst_idx n_rows dst i := by
  intro i
  rw [CopyNonNullBitmap_spec, CopyNonNullBitmap_spec]
  have hselRows : selRows sel1 (processedRows n_rows) = selRows sel2 (processedRows n_rows) := by
    unfold selRows
    apply List.filter_congr
    intro r hr
    have hrP : r < processedRows n_rows := List.mem_range.mp hr
    have hr8 : r / 8 < (n_rows + 7) / 8 := by
      unfold processedRows at hrP
      omega
    unfold bitView
    rw [hsel (r / 8) hr8]
  have hstream : streamBits nn1 sel1 (processedRows n_rows)
      = streamBits nn2 sel2 (processedRows n_rows) := by
    unfold streamBits
    rw [hselRows]
    apply List.map_congr_left
    intro r hr
    have hrP : r < processedRows n_rows :=
      List.mem_range.mp (List.mem_of_mem_filter hr)
    have hr8 : r / 8 < (n_rows + 7) / 8 := by
      unfold processedRows at hrP
      omega
    unfold bitView
    rw [hnn (r / 8) hr8]
  rw [hstream]

theorem cell_unique (c c' w b : Nat) (hb : b < w)
    (h1 : c' * w ≤ c * w + b) (h2 : c * w + b < c' * w + w) : c' = c := by
  have ha : c' * w < (c + 1) * w := by
    rw [Nat.succ_mul]
    omega
  have hb2 : c * w < (c' + 1) * w := by
    rw [Nat.succ_mul]
    omega
  have h3 : c' < c + 1 := Nat.lt_of_mul_lt_mul_right ha
  have h4 : c < c' + 1 := Nat.lt_of_mul_lt_mul_right hb2
  omega

theorem CopySelectedRowsImpl_aux (w : Nat) (sel_rows : List Nat) :
    ∀ (dpos : Nat) (src dst : Nat → Nat),
    (∀ x, x < dpos ∨ dpos + sel_rows.length * w ≤ x →
        CopySelectedRowsImpl w sel_rows dpos src dst x = dst x)
    ∧ (∀ i b, i < sel_rows.length → b < w →
        CopySelectedRowsImpl w sel_rows dpos src dst (dpos + (i * w + b))
          = src (sel_rows.getD i 0 * w + b) % 256) := by
  induction sel_rows with
  | nil =>
    intro dpos src dst
    constructor
    · intro x _
      rfl
    · intro i b hi _
      simp at hi
  | cons idx rest ih =>
    intro dpos src dst
    have hstep : ∀ m : Nat → Nat, CopySelectedRowsImpl w (idx :: rest) dpos src m
        = CopySelectedRowsImpl w rest (dpos + w) src
            (fun q => if dpos ≤ q ∧ q < dpos + w then src (idx * w + (q - dpos)) % 256 else m q) :=
      fun m => rfl
    constructor
    · intro x hx
      rw [hstep]
      have hlen : (idx :: rest).length * w = rest.length * w + w := by
        rw [List.length_cons, Nat.succ_mul]
      rw [(ih (dpos + w) src _).1 x (by omega)]
      show (if dpos ≤ x ∧ x < dpos + w then _ else dst x) = dst x
      rw [if_neg (by omega)]
    · intro i b hi hb
      rw [hstep]
      cases i with
      | zero =>
        have hpos : dpos + (0 * w + b) < dpos + w := by omega
        rw [(ih (dpos + w) src _).1 (dpos + (0 * w + b)) (by omega)]
        show (if dpos ≤ dpos + (0 * w + b) ∧ dpos + (0 * w + b) < dpos + w
              then src (idx * w + (dpos + (0 * w + b) - dpos)) % 256 else dst _)
            = src ((idx :: rest).getD 0 0 * w + b) % 256
        rw [if_pos (by omega)]
        rw [show dpos + (0 * w + b) - dpos = b by omega]
        rfl
      | succ i' =>
        have harg : dpos + ((i' + 1) * w + b) = (dpos + w) + (i' * w + b) := by
          rw [Nat.succ_mul]
          omega
        rw [harg]
        rw [(ih (dpos + w) src _).2 i' b (by simpa using hi) hb]
        rfl

/-- C4: for every supported cell width, source buffer and ordered index
sequence, `CopySelectedRows` copies the cell at each selected index to
the corresponding consecutive destination cell: destination byte
`i*w + b` equals source byte `sel_rows[i]*w + b` (byte values; the source
is a `uint8_t` buffer, so bytes are below 256). -/
theorem c4_copy_selected_rows (sel_rows : List Nat) (sizeof_type : Nat)
    (src_buf dst_buf : Nat → Nat)
    (hw : sizeof_type = 1 ∨ sizeof_type = 2 ∨ sizeof_type = 4 ∨ sizeof_type = 8 ∨ sizeof_type = 16)
    (hsrc : ∀ x, src_buf x < 256) :
    CopySelectedRows sel_rows sizeof_type src_buf dst_buf
      = some (CopySelectedRowsImpl sizeof_type sel_rows 0 src_buf dst_buf)
    ∧ ∀ i b, i < sel_rows.length → b < sizeof_type →
      CopySelectedRowsImpl sizeof_type sel_rows 0 src_buf dst_buf (i * sizeof_type + b)
        = src_buf (sel_rows.getD i 0 * sizeof_type + b) := by
  constructor
  · unfold CopySelectedRows
    rw [if_pos hw]
  · intro i b hi hb
    have h := (CopySelectedRowsImpl_aux sizeof_type sel_rows 0 src_buf dst_buf).2 i b hi hb
    rw [show (0 : Nat) + (i * sizeof_type + b) = i * sizeof_type + b by omega] at h
    rw [h, Nat.mod_eq_of_lt (hsrc _)]

/-- C10 (implicit): `CopySelectedRows` needs neither sortedness nor
distinctness of the selected indices: for an arbitrary index sequence —
including unordered ones and ones with repeats — the `i`-th destination
cell equals the source cell at the `i`-th index.  Stated over every
`sel_rows : List Nat` with no ordering hypothesis. -/
theorem c10_copy_selected_rows_unordered (sel_rows : List Nat) (sizeof_type : Nat)
    (src_buf dst_buf : Nat → Nat)
    (hw : sizeof_type = 1 ∨ sizeof_type = 2 ∨ sizeof_type = 4 ∨ sizeof_type = 8 ∨ sizeof_type = 16)
    (hsrc : ∀ x, src_buf x < 256) :
    ∀ i b, i < sel_rows.length → b < sizeof_type →
      CopySelectedRowsImpl sizeof_type sel_rows 0 src_buf dst_buf (i * sizeof_type + b)
        = src_buf (sel_rows.getD i 0 * sizeof_type + b) := by
  intro i b hi hb
  have h := (CopySelectedRowsImpl_aux sizeof_type sel_rows 0 src_buf dst_buf).2 i b hi hb
  rw [show (0 : Nat) + (i * sizeof_type + b) = i * sizeof_type + b by omega] at h
  rw [h, Nat.mod_eq_of_lt (hsrc _)]


theorem memsetZero_apply (m : Nat → Nat) (off len x : Nat) :
    memsetZero m off len x = if off ≤ x ∧ x < off + len then 0 else m x := rfl

theorem znv_fold_char (w a : Nat) (bm : Nat → Nat) (hw : 0 < w) :
    ∀ (n : Nat) (dst : Nat → Nat) (c b : Nat), b < w →
    ((List.range n).foldl
      (fun d p => if bitView bm (a + p) then d else memsetZero d ((a + p) * w) w) dst) (c * w + b)
      = if a ≤ c ∧ c < a + n ∧ bitView bm c = false then 0 else dst (c * w + b) := by
  intro n
  induction n with
  | zero =>
    intro dst c b hb
    show dst (c * w + b) = _
    have hneg : ¬ (a ≤ c ∧ c < a + 0 ∧ bitView bm c = false) := by
      rintro ⟨h1, h2, _⟩
      omega
    rw [if_neg hneg]
  | succ k ih =>
    intro dst c b hb
    rw [List.range_succ, List.foldl_append]
    show (if bitView bm (a + k) then _ else memsetZero _ ((a + k) * w) w) (c * w + b) = _
    by_cases hbit : bitView bm (a + k)
    · rw [if_pos hbit]
      rw [ih dst c b hb]
      by_cases hc : c = a + k
      · have hneg1 : ¬ (a ≤ c ∧ c < a + k ∧ bitView bm c = false) := by
          rintro ⟨_, h2, _⟩
          omega
        have hneg2 : ¬ (a ≤ c ∧ c < a + (k + 1) ∧ bitView bm c = false) := by
          rintro ⟨_, _, h3⟩
          rw [hc, hbit] at h3
          cases h3
        rw [if_neg hneg1, if_neg hneg2]
      · have hiff : (a ≤ c ∧ c < a + k ∧ bitView bm c = false)
            ↔ (a ≤ c ∧ c < a + (k + 1) ∧ bitView bm c = false) := by
          constructor
          · rintro ⟨h1, h2, h3⟩
            exact ⟨h1, by omega, h3⟩
          · rintro ⟨h1, h2, h3⟩
            exact ⟨h1, by omega, h3⟩
        rw [if_congr hiff rfl rfl]
    · rw [if_neg hbit]
      rw [memsetZero_apply]
      by_cases hin : (a + k) * w ≤ c * w + b ∧ c * w + b < (a + k) * w + w
      · rw [if_pos hin]
        have hc : a + k = c := cell_unique c (a + k) w b hb hin.1 hin.2
        have hpos : a ≤ c ∧ c < a + (k + 1) ∧ bitView bm c = false := by
          refine ⟨by omega, by omega, ?_⟩
          rw [← hc]
          simpa using hbit
        rw [if_pos hpos]
      · rw [if_neg hin]
        rw [ih dst c b hb]
        by_cases hc : c = a + k
        · exact absurd (by rw [hc]; exact ⟨Nat.le_add_right _ _, by omega⟩) hin
        · have hiff : (a ≤ c ∧ c < a + k ∧ bitView bm c = false)
              ↔ (a ≤ c ∧ c < a + (k + 1) ∧ bitView bm c = false) := by
            constructor
            · rintro ⟨h1, h2, h3⟩
              exact ⟨h1, by omega, h3⟩
            · rintro ⟨h1, h2, h3⟩
              exact ⟨h1, by omega, h3⟩
          rw [if_congr hiff rfl rfl]

theorem ZeroNullValuesImpl_char (sizeof_type dst_idx n_rows : Nat)
    (dst_values_buf non_null_bitmap : Nat → Nat) (hw : 0 < sizeof_type)
    (c b : Nat) (hb : b < sizeof_type) :
    ZeroNullValuesImpl sizeof_type dst_idx n_rows dst_values_buf non_null_bitmap
        (c * sizeof_type + b)
      = if 8 * (dst_idx / 8) ≤ c ∧ c < dst_idx + n_rows
          ∧ bitView non_null_bitmap c = false
        then 0 else dst_values_buf (c * sizeof_type + b) := by
  unfold ZeroNullValuesImpl
  rw [znv_fold_char sizeof_type (8 * (dst_idx / 8)) non_null_bitmap hw
      (n_rows + (dst_idx - 8 * (dst_idx / 8))) dst_values_buf c b hb]
  have hiff : (8 * (dst_idx / 8) ≤ c
        ∧ c < 8 * (dst_idx / 8) + (n_rows + (dst_idx - 8 * (dst_idx / 8)))
        ∧ bitView non_null_bitmap c = false)
      ↔ (8 * (dst_idx / 8) ≤ c ∧ c < dst_idx + n_rows
        ∧ bitView non_null_bitmap c = false) := by
    constructor
    · rintro ⟨h1, h2, h3⟩
      exact ⟨h1, by omega, h3⟩
    · rintro ⟨h1, h2, h3⟩
      exact ⟨h1, by omega, h3⟩
  rw [if_congr hiff rfl rfl]

/-- C5: after `ZeroNullValues`, every cell in `[dst_idx, dst_idx+n_rows)`
whose non-null bit is 0 consists of all-zero bytes, and every cell in
that range whose bit is 1 is unchanged. -/
theorem c5_zero_null_values (sizeof_type dst_idx n_rows : Nat)
    (dst_values_buf dst_non_null_bitmap : Nat → Nat)
    (hw : sizeof_type = 1 ∨ sizeof_type = 2 ∨ sizeof_type = 4
        ∨ sizeof_type = 8 ∨ sizeof_type = 16) :
    ZeroNullValues sizeof_type dst_idx n_rows dst_values_buf dst_non_null_bitmap
      = some (ZeroNullValuesImpl sizeof_type dst_idx n_rows dst_values_buf dst_non_null_bitmap)
    ∧ ∀ c b, dst_idx ≤ c → c < dst_idx + n_rows → b < sizeof_type →
      (bitView dst_non_null_bitmap c = false →
        ZeroNullValuesImpl sizeof_type dst_idx n_rows dst_values_buf dst_non_null_bitmap
          (c * sizeof_type + b) = 0)
      ∧ (bitView dst_non_null_bitmap c = true →
        ZeroNullValuesImpl sizeof_type dst_idx n_rows dst_values_buf dst_non_null_bitmap
          (c * sizeof_type + b) = dst_values_buf (c * sizeof_type + b)) := by
  have hw0 : 0 < sizeof_type := by omega
  constructor
  · unfold ZeroNullValues
    rw [if_pos hw]
  · intro c b hc1 hc2 hb
    constructor
    · intro hbit
      rw [ZeroNullValuesImpl_char sizeof_type dst_idx n_rows _ _ hw0 c b hb]
      rw [if_pos ⟨by omega, by omega, hbit⟩]
    · intro hbit
      rw [ZeroNullValuesImpl_char sizeof_type dst_idx n_rows _ _ hw0 c b hb]
      have hneg : ¬ (8 * (dst_idx / 8) ≤ c ∧ c < dst_idx + n_rows
          ∧ bitView dst_non_null_bitmap c = false) := by
        rintro ⟨_, _, h3⟩
        rw [hbit] at h3
        cases h3
      rw [if_neg hneg]

/-- C6: `ZeroNullValues` modifies no byte of any cell outside the
byte-aligned range `[align_down(dst_idx,8), dst_idx + n_rows)`: every
byte whose cell index is below `align_down(dst_idx,8)` or at/above
`dst_idx + n_rows` keeps its previous value; `dst_idx` exceeds the
aligned start by at most 7 cells, and among those slack cells of
`[align_down(dst_idx,8), dst_idx)` only the ones whose bitmap bit is 0
are additionally modified (zeroed) — a slack cell whose bit is 1 keeps
its exact previous bytes. -/
theorem c6_zero_null_frame (sizeof_type dst_idx n_rows : Nat)
    (dst_values_buf dst_non_null_bitmap : Nat → Nat)
    (hw : sizeof_type = 1 ∨ sizeof_type = 2 ∨ sizeof_type = 4
        ∨ sizeof_type = 8 ∨ sizeof_type = 16) :
    dst_idx - 8 * (dst_idx / 8) ≤ 7
    ∧ (∀ x, (x / sizeof_type < 8 * (dst_idx / 8) ∨ dst_idx + n_rows ≤ x / sizeof_type) →
      ZeroNullValuesImpl sizeof_type dst_idx n_rows dst_values_buf dst_non_null_bitmap x
        = dst_values_buf x)
    ∧ (∀ c b, 8 * (dst_idx / 8) ≤ c → c < dst_idx → b < sizeof_type →
        bitView dst_non_null_bitmap c = false →
      ZeroNullValuesImpl sizeof_type dst_idx n_rows dst_values_buf dst_non_null_bitmap
        (c * sizeof_type + b) = 0)
    ∧ (∀ c b, 8 * (dst_idx / 8) ≤ c → c < dst_idx → b < sizeof_type →
        bitView dst_non_null_bitmap c = true →
      ZeroNullValuesImpl sizeof_type dst_idx n_rows dst_values_buf dst_non_null_bitmap
        (c * sizeof_type + b) = dst_values_buf (c * sizeof_type + b)) := by
  have hw0 : 0 < sizeof_type := by omega
  refine ⟨by omega, ?_, ?_, ?_⟩
  · intro x hx
    have hxeq : x = x / sizeof_type * sizeof_type + x % sizeof_type :=
      (Nat.div_add_mod' x sizeof_type).symm
    have hbx : x % sizeof_type < sizeof_type := Nat.mod_lt _ hw0
    conv_lhs => rw [hxeq]
    rw [ZeroNullValuesImpl_char sizeof_type dst_idx n_rows _ _ hw0 (x / sizeof_type)
        (x % sizeof_type) hbx]
    have hneg : ¬ (8 * (dst_idx / 8) ≤ x / sizeof_type
        ∧ x / sizeof_type < dst_idx + n_rows
        ∧ bitView dst_non_null_bitmap (x / sizeof_type) = false) := by
      rintro ⟨h1, h2, _⟩
      rcases hx with h | h
      · omega
      · omega
    rw [if_neg hneg, ← hxeq]
  · intro c b hc1 hc2 hb hbit
    rw [ZeroNullValuesImpl_char sizeof_type dst_idx n_rows _ _ hw0 c b hb]
    rw [if_pos ⟨hc1, by omega, hbit⟩]
  · intro c b hc1 hc2 hb hbit
    rw [ZeroNullValuesImpl_char sizeof_type dst_idx n_rows _ _ hw0 c b hb]
    have hneg : ¬ (8 * (dst_idx / 8) ≤ c ∧ c < dst_idx + n_rows
        ∧ bitView dst_non_null_bitmap c = false) := by
      rintro ⟨_, _, h3⟩
      rw [hbit] at h3
      cases h3
    rw [if_neg hneg]

/-- C8: calling `CopySelectedRows` or `ZeroNullValues` with a cell width
outside {1,2,4,8,16} hits `LOG(FATAL)` — modelled as `none` — before any
destination byte is touched, while every supported width dispatches to a
specialized implementation (`some _`). -/
theorem c8_unsupported_width_fatal (sizeof_type dst_idx n_rows : Nat)
    (sel_rows : List Nat) (src_buf dst_buf dst_values_buf dst_non_null_bitmap : Nat → Nat) :
    (¬ (sizeof_type = 1 ∨ sizeof_type = 2 ∨ sizeof_type = 4
        ∨ sizeof_type = 8 ∨ sizeof_type = 16) →
      CopySelectedRows sel_rows sizeof_type src_buf dst_buf = none
      ∧ ZeroNullValues sizeof_type dst_idx n_rows dst_values_buf dst_non_null_bitmap = none)
    ∧ ((sizeof_type = 1 ∨ sizeof_type = 2 ∨ sizeof_type = 4
        ∨ sizeof_type = 8 ∨ sizeof_type = 16) →
      (CopySelectedRows sel_rows sizeof_type src_buf dst_buf).isSome = true
      ∧ (ZeroNullValues sizeof_type dst_idx n_rows dst_values_buf dst_non_null_bitmap).isSome
          = true) := by
  constructor
  · intro h
    unfold CopySelectedRows ZeroNullValues
    rw [if_neg h, if_neg h]
    exact ⟨rfl, rfl⟩
  · intro h
    unfold CopySelectedRows ZeroNullValues
    rw [if_pos h, if_pos h]
    exact ⟨rfl, rfl⟩

/-- C7: `GetAvailablePextMethods` always returns a nonempty list ending
in the bit-by-bit method `kSimple`; it contains `kPextInstruction`, in
first position, exactly when the CPU has BMI2 and its vendor is
GenuineIntel; it contains `kClmul`, before `kSimple`, exactly when the
CPU supports pclmulqdq; and `g_pext_method` — the process-wide strategy,
a constant of the detected CPU — is the first element of the list. -/
theorem c7_pext_method_selection (cpu : CPU) :
    GetAvailablePextMethods cpu ≠ []
    ∧ (GetAvailablePextMethods cpu).getLast? = some PextMethod.kSimple
    ∧ (PextMethod.kPextInstruction ∈ GetAvailablePextMethods cpu
        ↔ (cpu.has_bmi2 = true ∧ cpu.vendor_name = "GenuineIntel"))
    ∧ (PextMethod.kPextInstruction ∈ GetAvailablePextMethods cpu →
        (GetAvailablePextMethods cpu).head? = some PextMethod.kPextInstruction)
    ∧ (PextMethod.kClmul ∈ GetAvailablePextMethods cpu ↔ cpu.has_pclmulqdq = true)
    ∧ (PextMethod.kClmul ∈ GetAvailablePextMethods cpu →
        (GetAvailablePextMethods cpu).indexOf PextMethod.kClmul
          < (GetAvailablePextMethods cpu).indexOf PextMethod.kSimple)
    ∧ (GetAvailablePextMethods cpu).head? = some (g_pext_method cpu) := by
  obtain ⟨b1, b2, vn⟩ := cpu
  by_cases hbe : (b1 && (vn == "GenuineIntel")) = true
  · rw [Bool.and_eq_true] at hbe
    obtain ⟨hb1, hvn'⟩ := hbe
    have hvn : vn = "GenuineIntel" := eq_of_beq hvn'
    subst hb1
    subst hvn
    by_cases hc : b2 = true
    · subst hc
      decide
    · have hc2 : b2 = false := by simpa using hc
      subst hc2
      decide
  · have hnot : ¬ (b1 = true ∧ vn = "GenuineIntel") := by
      rintro ⟨h1, h2⟩
      subst h1
      subst h2
      simp at hbe
    by_cases hc : b2 = true
    · subst hc
      have hlist : GetAvailablePextMethods ⟨b1, true, vn⟩
          = [PextMethod.kClmul, PextMethod.kSimple] := by
        simp only [GetAvailablePextMethods]
        rw [if_neg hbe]
        rfl
      rw [hlist]
      refine ⟨by decide, by decide, ?_, by decide, ?_, by decide, ?_⟩
      · constructor
        · intro h
          exact absurd h (by decide)
        · intro h
          exact absurd h hnot
      · exact ⟨fun _ => rfl, fun _ => by decide⟩
      · show some PextMethod.kClmul = some (g_pext_method ⟨b1, true, vn⟩)
        unfold g_pext_method
        rw [hlist]
    · have hc2 : b2 = false := by simpa using hc
      subst hc2
      have hlist : GetAvailablePextMethods ⟨b1, false, vn⟩ = [PextMethod.kSimple] := by
        simp only [GetAvailablePextMethods]
        rw [if_neg hbe]
        rfl
      rw [hlist]
      refine ⟨by decide, by decide, ?_, by decide, ?_, by decide, ?_⟩
      · constructor
        · intro h
          exact absurd h (by decide)
        · intro h
          exact absurd h hnot
      · constructor
        · intro h
          exact absurd h (by decide)
        · intro h
          exact Bool.noConfusion h
      · show some PextMethod.kSimple = some (g_pext_method ⟨b1, false, vn⟩)
        unfold g_pext_method
        rw [hlist]

/-- C9 counterexample: an error transition of `ReadCurrentDataBlock`
allowed by its documented contract ("If this returns an error, then the
fields have undefined values") in which `dblk_data_` changes — so the
claim that the cached-block output fields are unchanged on error is not
part of the contract. -/
theorem c9_counterexample :
    ReadCurrentDataBlockStep false
      ⟨true, 5, 10, 20⟩ ⟨true, 5, 99, 20⟩
    ∧ (⟨true, 5, 99, 20⟩ : CFileIterState).dblk_data_
      ≠ (⟨true, 5, 10, 20⟩ : CFileIterState).dblk_data_ := by
  constructor
  · show (if false = true then _ else _ : Prop)
    rw [if_neg (by simp)]
    exact ⟨rfl, rfl⟩
  · decide

/-- C9 amended: on error, `ReadCurrentDataBlock` leaves the iterator
position (and seek state) unchanged; the output fields `dblk_data_` and
`dblk_` are undefined (possibly stale or clobbered), so callers must
check the error before touching them. -/
theorem c9_error_position_unchanged (s s' : CFileIterState)
    (h : ReadCurrentDataBlockStep false s s') :
    s'.pos = s.pos ∧ s'.seeked_ = s.seeked_ := by
  have h' : s'.seeked_ = s.seeked_ ∧ s'.pos = s.pos := by
    have : (if false = true then
        (s'.seeked_ = s.seeked_ ∧ s'.pos = s.pos ∧
          ∃ d k, s' = { s with dblk_data_ := d, dblk_ := k })
      else (s'.seeked_ = s.seeked_ ∧ s'.pos = s.pos) : Prop) := h
    rwa [if_neg (by simp)] at this
  exact ⟨h'.2, h'.1⟩

/-- Witness for C2 at a concrete input: `dst_idx = 3`, `n_rows = 8`,
all rows selected, non-null byte `0xAD`, destination pre-filled `0xFF`. -/
theorem c2_compaction_witness :
    bitView (CopyNonNullBitmap PextMethod.kSimple (fun _ => 173) (fun _ => 255) 3 8
        (fun _ => 255)) (3 + 0)
      = bitView (fun _ => 173) ((selRows (fun _ => 255) 8).getD 0 0)
    ∧ bitView (CopyNonNullBitmap PextMethod.kSimple (fun _ => 173) (fun _ => 255) 3 8
        (fun _ => 255)) 0
      = bitView (fun _ => 255) 0 :=
  ⟨(c2_compaction_functional_correctness PextMethod.kSimple (fun _ => 173) (fun _ => 255)
      3 8 (fun _ => 255)).1 0 (by decide),
   (c2_compaction_functional_correctness PextMethod.kSimple (fun _ => 173) (fun _ => 255)
      3 8 (fun _ => 255)).2 0 (by decide) (by decide)⟩

/-- Witness for the amended C3 at a concrete input. -/
theorem c3_reads_only_witness :
    CopyNonNullBitmap PextMethod.kSimple (fun _ => 5) (fun _ => 7) 2 3 (fun _ => 0) 0
      = CopyNonNullBitmap PextMethod.kSimple (fun _ => 5) (fun _ => 7) 2 3 (fun _ => 0) 0 :=
  c3_reads_only_processed_bytes PextMethod.kSimple (fun _ => 5) (fun _ => 5)
    (fun _ => 7) (fun _ => 7) (fun _ => 0) 2 3
    (fun _ _ => rfl) (fun _ _ => rfl) 0

/-- Witness for C4 at a concrete input: width 2, selected indices
`[2, 0, 2]`, cell 1 of the destination receives source cell 0. -/
theorem c4_copy_selected_rows_witness :
    CopySelectedRows [2, 0, 2] 2 (fun x => x % 7) (fun _ => 9)
      = some (CopySelectedRowsImpl 2 [2, 0, 2] 0 (fun x => x % 7) (fun _ => 9))
    ∧ CopySelectedRowsImpl 2 [2, 0, 2] 0 (fun x => x % 7) (fun _ => 9) (1 * 2 + 0)
      = (fun x => x % 7) ([2, 0, 2].getD 1 0 * 2 + 0) :=
  ⟨(c4_copy_selected_rows [2, 0, 2] 2 (fun x => x % 7) (fun _ => 9) (by decide)
      (fun x => by show x % 7 < 256; omega)).1,
   (c4_copy_selected_rows [2, 0, 2] 2 (fun x => x % 7) (fun _ => 9) (by decide)
      (fun x => by show x % 7 < 256; omega)).2 1 0 (by decide) (by decide)⟩

/-- Witness for C10 at a concrete input with an unordered, repeating
index sequence `[2, 0, 2]`. -/
theorem c10_copy_selected_rows_witness :
    CopySelectedRowsImpl 2 [2, 0, 2] 0 (fun x => x % 7) (fun _ => 9) (2 * 2 + 1)
      = (fun x => x % 7) ([2, 0, 2].getD 2 0 * 2 + 1) :=
  c10_copy_selected_rows_unordered [2, 0, 2] 2 (fun x => x % 7) (fun _ => 9) (by decide)
    (fun x => by show x % 7 < 256; omega) 2 1 (by decide) (by decide)

/-- Witness for C5 at a concrete input: width 4, `dst_idx = 5`,
`n_rows = 4`, bitmap `0x01 0x01 ...` (cell 5 null and zeroed, cell 8
non-null and preserved). -/
theorem c5_zero_null_values_witness :
    ZeroNullValuesImpl 4 5 4 (fun _ => 7) (fun _ => 1) (5 * 4 + 0) = 0
    ∧ ZeroNullValuesImpl 4 5 4 (fun _ => 7) (fun _ => 1) (8 * 4 + 0) = 7 :=
  ⟨((c5_zero_null_values 4 5 4 (fun _ => 7) (fun _ => 1) (by decide)).2 5 0
      (by decide) (by decide) (by decide)).1 (by decide),
   ((c5_zero_null_values 4 5 4 (fun _ => 7) (fun _ => 1) (by decide)).2 8 0
      (by decide) (by decide) (by decide)).2 (by decide)⟩

/-- Witness for C6 at concrete inputs: width 4, `dst_idx = 9`; byte 0
(cell 0, below the aligned start 8) is untouched; slack cell 8 is
zeroed when its bitmap bit is 0 (bitmap `0x00`) and keeps its previous
bytes when its bit is 1 (bitmap `0x01 0x01 ...`). -/
theorem c6_zero_null_frame_witness :
    9 - 8 * (9 / 8) ≤ 7
    ∧ ZeroNullValuesImpl 4 9 2 (fun _ => 7) (fun _ => 0) 0 = 7
    ∧ ZeroNullValuesImpl 4 9 2 (fun _ => 7) (fun _ => 0) (8 * 4 + 0) = 0
    ∧ ZeroNullValuesImpl 4 9 2 (fun _ => 7) (fun _ => 1) (8 * 4 + 0) = 7 :=
  ⟨(c6_zero_null_frame 4 9 2 (fun _ => 7) (fun _ => 0) (by decide)).1,
   (c6_zero_null_frame 4 9 2 (fun _ => 7) (fun _ => 0) (by decide)).2.1 0 (by decide),
   (c6_zero_null_frame 4 9 2 (fun _ => 7) (fun _ => 0) (by decide)).2.2.1 8 0
     (by decide) (by decide) (by decide) (by decide),
   (c6_zero_null_frame 4 9 2 (fun _ => 7) (fun _ => 1) (by decide)).2.2.2 8 0
     (by decide) (by decide) (by decide) (by decide)⟩

/-- Witness for C7 at a concrete CPU (Intel with BMI2 and pclmulqdq):
the hardware method is present and first, and clmul precedes kSimple. -/
theorem c7_pext_method_selection_witness :
    (GetAvailablePextMethods ⟨true, true, "GenuineIntel"⟩).head?
      = some PextMethod.kPextInstruction
    ∧ (GetAvailablePextMethods ⟨true, true, "GenuineIntel"⟩).indexOf PextMethod.kClmul
      < (GetAvailablePextMethods ⟨true, true, "GenuineIntel"⟩).indexOf PextMethod.kSimple :=
  ⟨(c7_pext_method_selection ⟨true, true, "GenuineIntel"⟩).2.2.2.1 (by decide),
   (c7_pext_method_selection ⟨true, true, "GenuineIntel"⟩).2.2.2.2.2.1 (by decide)⟩

/-- Witness for C8 at concrete widths: 3 is rejected, 8 is accepted. -/
theorem c8_unsupported_width_witness :
    (CopySelectedRows [0] 3 (fun _ => 0) (fun _ => 0) = none
      ∧ ZeroNullValues 3 0 1 (fun _ => 0) (fun _ => 0) = none)
    ∧ ((CopySelectedRows [0] 8 (fun _ => 0) (fun _ => 0)).isSome = true
      ∧ (ZeroNullValues 8 0 1 (fun _ => 0) (fun _ => 0)).isSome = true) :=
  ⟨(c8_unsupported_width_fatal 3 0 1 [0] (fun _ => 0) (fun _ => 0) (fun _ => 0)
      (fun _ => 0)).1 (by decide),
   (c8_unsupported_width_fatal 8 0 1 [0] (fun _ => 0) (fun _ => 0) (fun _ => 0)
      (fun _ => 0)).2 (by decide)⟩

/-- Witness for the amended C9 at a concrete error transition. -/
theorem c9_error_position_witness :
    (⟨true, 5, 11, 22⟩ : CFileIterState).pos = (⟨true, 5, 10, 20⟩ : CFileIterState).pos
    ∧ (⟨true, 5, 11, 22⟩ : CFileIterState).seeked_
      = (⟨true, 5, 10, 20⟩ : CFileIterState).seeked_ :=
  c9_error_position_unchanged ⟨true, 5, 10, 20⟩ ⟨true, 5, 11, 22⟩
    (by show (if false = true then _ else _ : Prop)
        rw [if_neg (by simp)]
        exact ⟨rfl, rfl⟩)
